import Mathlib

/-!
Verification development for the bishe image-steganography tool.

The repository implements LSB steganography (src/core/lsb.py), a Sobel
gradient-adaptive variant (src/core/sobel_adaptive.py), an attack simulator
(src/core/attack_simulator.py) and quality metrics (src/utils/metrics.py).
This file gives a shallow embedding of those modules and proves properties
of them.

Modelling conventions:
- an image (a numpy uint8 array of shape (H,W) or (H,W,3)) is a structure
  holding the two or three shape components and the nested list of rows of
  pixels of channel samples; a grayscale array has channel count 1, a color
  array channel count 3, matching the branches on len(shape) in the source;
- Python strings are lists of natural numbers (the code points, as consumed
  through ord);
- machine integers are Nat / Int, floats that only ever hold exact values
  (parameter bounds, mean-square sums) are Rat;
- functions that raise are embedded with Except;
- the cv2 / numpy library primitives that are genuinely non-arithmetical
  (the JPEG codec round trip, cv2.resize, cv2.GaussianBlur, cv2.Sobel with
  its float64 normalization, np.random.normal) are taken as function
  parameters; the repository code around them is translated literally and
  theorems carry the documented shape contracts of those primitives as
  hypotheses.
-/

/-! ### Bit codec, from lsb.py lines 22-25 and 96-109

format(ord(c), \x7b08b\x7d) produces the binary digits of the code point,
left padded with zeros to a width of at least eight; it does NOT truncate,
so a code point above 255 yields more than eight digits.
-/

/-- int(byteString, 2): value of a big-endian list of binary digits. -/
def bitsToNat (bs : List Nat) : Nat := bs.foldl (fun a b => 2 * a + b) 0

/-- Binary digits of n, most significant first (format(n, "b")), written
with explicit fuel so that the recursion is structural; the fuel never runs
out when it starts at n. -/
def natBinGo : Nat → Nat → List Nat
  | 0, n => [n % 2]
  | fuel + 1, n => if n < 2 then [n] else natBinGo fuel (n / 2) ++ [n % 2]

/-- Binary digits of n, most significant first; 0 gives [0]. -/
def natBin (n : Nat) : List Nat := natBinGo n n

/-- format(n, "08b"): binary digits, left padded with 0 to width at least 8. -/
def toBin8 (n : Nat) : List Nat :=
  List.replicate (8 - (natBin n).length) 0 ++ natBin n

/-- The bit sequence embedded for a payload: the per-character blocks in
payload order followed by the eight-zero terminator (lsb.py lines 23-25,
sobel_adaptive.py lines 75-77). -/
def encodeBits (p : List Nat) : List Nat :=
  (p.map toBin8).flatten ++ List.replicate 8 0

/-- The decoding fallback of extract (lsb.py lines 96-109): split into
groups of eight bits, turn each complete group into a character, drop a
trailing incomplete group. -/
def decodeBits : List Nat → List Nat
  | b0 :: b1 :: b2 :: b3 :: b4 :: b5 :: b6 :: b7 :: rest =>
      bitsToNat [b0, b1, b2, b3, b4, b5, b6, b7] :: decodeBits rest
  | _ => []

/-- stego = (pixel & 0xFE) | bit (lsb.py line 48). -/
def writeLsb (s b : Nat) : Nat := (s &&& 0xFE) ||| b

/-! ### Images

A numpy uint8 image of shape (H,W) (grayscale) or (H,W,3) (color).
Each pixel is the list of its channel samples, so a grayscale pixel is a
one-element list; the field C records the channel count (1 for a 2-d
array, 3 for a 3-d array), standing in for the len(image.shape) tests of
the source. Well-formedness states what numpy guarantees for such arrays:
a rectangular H by W grid of pixels of C samples, every sample below 256.
-/

instance {ε α : Type} [DecidableEq ε] [DecidableEq α] : DecidableEq (Except ε α) := fun a b =>
  match a, b with
  | .error e, .error f =>
      if h : e = f then .isTrue (congrArg Except.error h)
      else .isFalse (fun c => h (Except.error.inj c))
  | .ok x, .ok y =>
      if h : x = y then .isTrue (congrArg Except.ok h)
      else .isFalse (fun c => h (Except.ok.inj c))
  | .error _, .ok _ => .isFalse (fun c => Except.noConfusion c)
  | .ok _, .error _ => .isFalse (fun c => Except.noConfusion c)

structure Img where
  H : Nat
  W : Nat
  C : Nat
  rows : List (List (List Nat))
deriving DecidableEq

/-- Raster-major, channel-minor flattening: numpy image.flatten(). -/
def Img.flat (img : Img) : List Nat := img.rows.flatten.flatten

/-- numpy image.shape, with the channel count as the third component. -/
def Img.shape (img : Img) : Nat × Nat × Nat := (img.H, img.W, img.C)

/-- The data-model invariant of a uint8 image buffer. -/
def Img.wf (img : Img) : Prop :=
  img.rows.length = img.H ∧
  (∀ r ∈ img.rows, r.length = img.W) ∧
  (∀ r ∈ img.rows, ∀ px ∈ r, px.length = img.C) ∧
  (∀ r ∈ img.rows, ∀ px ∈ r, ∀ s ∈ px, s < 256)

instance (img : Img) : Decidable img.wf := by
  unfold Img.wf; infer_instance

/-- The error raised when a payload does not fit (ValueError in the
source, the CapacityError of the spec). -/
inductive StegoError where
  | capacity
deriving DecidableEq

/-! ### LSB embedding helpers (lsb.py lines 38-61)

The nested loops write the next bit into the next channel sample while
bits remain; this is recursion over the samples of a pixel, the pixels of
a row, and the rows, threading the remaining bits through.
-/

/-- Write bits into the channel samples of one pixel (or any flat slot
run): each sample takes the next bit while bits remain. -/
def embedFlat : List Nat → List Nat → List Nat
  | ss, [] => ss
  | [], _ => []
  | s :: ss, b :: bs => writeLsb s b :: embedFlat ss bs

/-- Write bits across a list of pixels in order, returning the new pixels
and the bits that remain. -/
def embedPixList : List (List Nat) → List Nat → List (List Nat) × List Nat
  | [], bs => ([], bs)
  | px :: rest, bs =>
      let r := embedPixList rest (bs.drop px.length)
      (embedFlat px bs :: r.1, r.2)

/-- Write bits across the rows in raster order. -/
def embedRows : List (List (List Nat)) → List Nat → List (List (List Nat)) × List Nat
  | [], bs => ([], bs)
  | r :: rest, bs =>
      let a := embedPixList r bs
      let b := embedRows rest a.2
      (a.1 :: b.1, b.2)

namespace LSBSteganography

/-- LSBSteganography.embed (lsb.py lines 12-62): encode the payload, fail
when the flattened image has fewer slots than bits, else write the bits
into the least significant bits of a copy in raster order. -/
def embed (coverImage : Img) (secretData : List Nat) : Except StegoError Img :=
  let binaryData := encodeBits secretData
  if coverImage.flat.length < binaryData.length then
    .error .capacity
  else
    .ok ⟨coverImage.H, coverImage.W, coverImage.C,
         (embedRows coverImage.rows binaryData).1⟩

/-- The extraction loop of LSBSteganography.extract (lsb.py lines 74-111):
per pixel, append the least significant bit of every channel sample to the
accumulated bit string, then test whether the length is a multiple of
eight and the last eight bits are the terminator; on a match decode
everything before the terminator, at the end of the image decode whatever
accumulated. -/
def extractScan : List (List Nat) → List Nat → List Nat
  | [], acc => decodeBits acc
  | px :: rest, acc =>
      let acc2 := acc ++ px.map (· % 2)
      if acc2.length % 8 = 0 ∧ acc2.drop (acc2.length - 8) = List.replicate 8 0 then
        decodeBits (acc2.take (acc2.length - 8))
      else
        extractScan rest acc2

/-- LSBSteganography.extract. -/
def extract (stegoImage : Img) : List Nat :=
  extractScan stegoImage.rows.flatten []

/-- LSBSteganography.get_embedding_capacity (lsb.py lines 113-128):
image.size // 8 for a 2-d array, (H * W * 3) // 8 for a 3-d array,
0 otherwise. -/
def getEmbeddingCapacity (coverImage : Img) : Nat :=
  if coverImage.C = 1 then coverImage.H * coverImage.W / 8
  else if coverImage.C = 3 then coverImage.H * coverImage.W * 3 / 8
  else 0

end LSBSteganography

namespace SobelAdaptiveSteganography

/-- SobelAdaptiveSteganography.create_embedding_mask (sobel_adaptive.py
lines 41-54): (gradient > threshold).astype(uint8). The gradient samples
are uint8, the threshold an int that the embed loop can drive below 0. -/
def createEmbeddingMask (gradient : List (List Nat)) (threshold : Int) : List (List Nat) :=
  gradient.map (fun r => r.map (fun (v : Nat) => if threshold < (v : Int) then 1 else 0))

/-- np.sum(mask). -/
def maskSum (mask : List (List Nat)) : Nat := (mask.map List.sum).sum

/-- available_pixels * 3 for a 3-d image, available_pixels otherwise
(sobel_adaptive.py lines 83-86). -/
def availableCapacity (c : Nat) (mask : List (List Nat)) : Nat :=
  if c = 3 then maskSum mask * 3 else maskSum mask

/-- The threshold-relaxation loop (sobel_adaptive.py lines 88-99): while
the capacity of the current mask is insufficient and the threshold is
positive, lower the threshold by 5 and recompute; returns the final
threshold. Fuel keeps the recursion structural; threshold.toNat + 1 steps
always suffice because each pass subtracts 5 and the loop stops at or
below 0. -/
def relaxGo (gradient : List (List Nat)) (c dataLen : Nat) : Nat → Int → Int
  | 0, thr => thr
  | fuel + 1, thr =>
      if availableCapacity c (createEmbeddingMask gradient thr) < dataLen ∧ 0 < thr then
        relaxGo gradient c dataLen fuel (thr - 5)
      else thr

/-- The threshold actually used by embed after relaxation. -/
def relaxThreshold (gradient : List (List Nat)) (c dataLen : Nat) (thr : Int) : Int :=
  relaxGo gradient c dataLen (thr.toNat + 1) thr

/-- Masked write over the pixels of one row (sobel_adaptive.py lines
112-132): a pixel is written (all channels, while bits remain) only when
bits remain and its mask entry is 1. -/
def sembedPixList : List (List Nat) → List Nat → List Nat → List (List Nat) × List Nat
  | [], _, bs => ([], bs)
  | px :: rest, [], bs => (px :: rest, bs)
  | px :: rest, m :: ms, bs =>
      if bs ≠ [] ∧ m = 1 then
        let r := sembedPixList rest ms (bs.drop px.length)
        (embedFlat px bs :: r.1, r.2)
      else
        let r := sembedPixList rest ms bs
        (px :: r.1, r.2)

/-- Masked write over the rows. -/
def sembedRows : List (List (List Nat)) → List (List Nat) → List Nat →
    List (List (List Nat)) × List Nat
  | [], _, bs => ([], bs)
  | r :: rest, [], bs => (r :: rest, bs)
  | r :: rest, mr :: mrest, bs =>
      let a := sembedPixList r mr bs
      let b := sembedRows rest mrest a.2
      (a.1 :: b.1, b.2)

/-- SobelAdaptiveSteganography.embed (sobel_adaptive.py lines 57-134).
The Sobel gradient computation (cv2.Sobel, cv2.magnitude and the float64
min-max normalization of compute_sobel_gradient, lines 13-39) is taken as
the function parameter gradFn; everything else is translated from the
source: build the mask at the requested threshold, relax the threshold in
steps of 5 while the capacity is insufficient and the threshold positive,
raise when the final mask is still too small, else write the bits into the
masked pixels in raster order. -/
def embed (gradFn : Img → List (List Nat)) (coverImage : Img)
    (secretData : List Nat) (threshold : Int) : Except StegoError Img :=
  let gradient := gradFn coverImage
  let binaryData := encodeBits secretData
  let dataLen := binaryData.length
  let thrF := relaxThreshold gradient coverImage.C dataLen threshold
  let mask := createEmbeddingMask gradient thrF
  if availableCapacity coverImage.C mask < dataLen then
    .error .capacity
  else
    .ok ⟨coverImage.H, coverImage.W, coverImage.C,
         (sembedRows coverImage.rows mask binaryData).1⟩

/-- The extraction loop of SobelAdaptiveSteganography.extract
(sobel_adaptive.py lines 156-191): only pixels whose mask entry is 1
contribute their channel LSBs; the terminator test additionally requires
at least eight accumulated bits. -/
def sextractScan : List (List Nat × Nat) → List Nat → List Nat
  | [], acc => decodeBits acc
  | pm :: rest, acc =>
      if pm.2 = 1 then
        let acc2 := acc ++ pm.1.map (· % 2)
        if acc2.length % 8 = 0 ∧ 8 ≤ acc2.length ∧
            acc2.drop (acc2.length - 8) = List.replicate 8 0 then
          decodeBits (acc2.take (acc2.length - 8))
        else
          sextractScan rest acc2
      else
        sextractScan rest acc

/-- SobelAdaptiveSteganography.extract: recompute gradient and mask on the
stego image at the caller-supplied threshold, scan the masked pixels. -/
def extract (gradFn : Img → List (List Nat)) (stegoImage : Img)
    (threshold : Int) : List Nat :=
  let mask := createEmbeddingMask (gradFn stegoImage) threshold
  sextractScan (((stegoImage.rows.zip mask).map (fun rm => rm.1.zip rm.2)).flatten) []

/-- SobelAdaptiveSteganography.get_embedding_capacity (sobel_adaptive.py
lines 193-218). -/
def getEmbeddingCapacity (gradFn : Img → List (List Nat)) (coverImage : Img)
    (threshold : Int) : Nat :=
  let mask := createEmbeddingMask (gradFn coverImage) threshold
  if coverImage.C = 1 then maskSum mask / 8
  else if coverImage.C = 3 then maskSum mask * 3 / 8
  else 0

end SobelAdaptiveSteganography

/-- Common core of the two extraction loops: scan bit groups, test for
the terminator after each group with the test of sextractScan (whose
extra length conjunct is redundant, see extractScan_eq_scanCore). Both
extract loops are proved equal to runs of this function. -/
def scanCore : List (List Nat) → List Nat → List Nat
  | [], acc => decodeBits acc
  | px :: rest, acc =>
      let acc2 := acc ++ px.map (· % 2)
      if acc2.length % 8 = 0 ∧ 8 ≤ acc2.length ∧
          acc2.drop (acc2.length - 8) = List.replicate 8 0 then
        decodeBits (acc2.take (acc2.length - 8))
      else
        scanCore rest acc2

/-- The subsequence of pixels whose mask entry is 1, in raster order: the
pixels that the masked embed writes and the masked extract reads. -/
def maskedPixels : List (List Nat) → List Nat → List (List Nat)
  | [], _ => []
  | _ :: _, [] => []
  | px :: rest, m :: ms =>
      if m = 1 then px :: maskedPixels rest ms else maskedPixels rest ms

/-! ### Attack simulator (attack_simulator.py)

The cv2 primitives are parameters: codecRT stands for the
imwrite-to-JPEG-then-imread round trip of jpeg_compression (cv2.imread
with its default flag decodes to a 3-channel array), resizeFn for
cv2.resize(image, (w, h)) (spatial size becomes h by w, channel count is
kept), blurFn for cv2.GaussianBlur, noiseFn for the float64 noise array
drawn by np.random.normal. Theorems state the documented shape contracts
of these primitives as hypotheses.
-/

/-- ValueError for an out-of-domain attack parameter (the
InvalidParameterError of the spec). -/
inductive AttackError where
  | invalidParameter
deriving DecidableEq

namespace AttackSimulator

/-- AttackSimulator.jpeg_compression (attack_simulator.py lines 23-56):
validate quality, run the codec round trip, and resize back when the
decoded shape differs from the input shape. -/
def jpegCompression (codecRT : Img → Img) (resizeFn : Img → Nat → Nat → Img)
    (image : Img) (quality : Int) : Except AttackError Img :=
  if quality < 1 ∨ 100 < quality then
    .error .invalidParameter
  else
    let compressedImage := codecRT image
    if compressedImage.shape ≠ image.shape then
      .ok (resizeFn compressedImage image.W image.H)
    else
      .ok compressedImage

/-- AttackSimulator.gaussian_blur (attack_simulator.py lines 58-75):
an even kernel size is bumped to the next odd value, then the Gaussian
filter is applied. -/
def gaussianBlur (blurFn : Img → Nat → ℚ → Img) (image : Img)
    (kernelSize : Nat) (sigma : ℚ) : Img :=
  let k := if kernelSize % 2 = 0 then kernelSize + 1 else kernelSize
  blurFn image k sigma

/-- AttackSimulator.crop_attack (attack_simulator.py lines 77-107):
validate the ratio, centre-crop to int(H*ratio) by int(W*ratio), resize
back to the original width and height. -/
def cropAttack (resizeFn : Img → Nat → Nat → Img) (image : Img)
    (cropRatio : ℚ) : Except AttackError Img :=
  if cropRatio ≤ 0 ∨ 1 ≤ cropRatio then
    .error .invalidParameter
  else
    let cropHeight := ((cropRatio * image.H).floor).toNat
    let cropWidth := ((cropRatio * image.W).floor).toNat
    let startY := (image.H - cropHeight) / 2
    let startX := (image.W - cropWidth) / 2
    let croppedImage : Img :=
      ⟨cropHeight, cropWidth, image.C,
       ((image.rows.drop startY).take cropHeight).map
         (fun r => (r.drop startX).take cropWidth)⟩
    .ok (resizeFn croppedImage image.W image.H)

/-- Clamp to [0,255] and cast to uint8 (truncation of a value already in
range is its floor). -/
def clipSample (q : ℚ) : Nat := (min 255 (max 0 q)).floor.toNat

/-- AttackSimulator.gaussian_noise (attack_simulator.py lines 109-130):
add per-sample noise (np.random.normal output, here the parameter
noiseFn indexed by row, column and channel), clip to [0,255], cast back
to uint8. -/
def gaussianNoise (noiseFn : Nat → Nat → Nat → ℚ) (image : Img) : Img :=
  ⟨image.H, image.W, image.C,
   image.rows.enum.map (fun ir =>
     ir.2.enum.map (fun jp =>
       jp.2.enum.map (fun ks => clipSample ((ks.2 : ℚ) + noiseFn ir.1 jp.1 ks.1))))⟩

end AttackSimulator

/-! ### Metrics (metrics.py) -/

/-- ValueError for incompatible metric inputs (the ShapeMismatchError of
the spec). -/
inductive MetricError where
  | shapeMismatch
deriving DecidableEq

/-- The value calculate_psnr returns: float inf when the MSE is zero, the
float nan that np.mean of an empty array propagates, or the finite value
20*log10(255/sqrt(mse)), represented by its MSE (the map from MSE to PSNR
is strictly monotone, so nothing is lost). -/
inductive PsnrResult where
  | inf
  | nan
  | val (mse : ℚ)
deriving DecidableEq

/-- Sum of squared float64 differences over paired samples. -/
def sqDiffSum : List Nat → List Nat → ℚ
  | a :: as2, b :: bs => ((a : ℚ) - (b : ℚ)) * ((a : ℚ) - (b : ℚ)) + sqDiffSum as2 bs
  | _, _ => 0

/-- calculate_psnr (metrics.py lines 6-34): reject distinct shapes, take
the mean squared error over all samples, return inf when it is exactly 0,
else the finite PSNR. np.mean over zero samples yields nan, which then
propagates to the result; the uint8 clipping branch is the identity here
because image samples are already uint8. -/
def calculatePsnr (original modified : Img) : Except MetricError PsnrResult :=
  if original.shape ≠ modified.shape then
    .error .shapeMismatch
  else
    let n := original.flat.length
    let mse := sqDiffSum original.flat modified.flat / (n : ℚ)
    if n = 0 then .ok .nan
    else if mse = 0 then .ok .inf
    else .ok (.val mse)

/-- calculate_ber_text (metrics.py lines 138-174): 1.0 when either text is
None or either is empty; otherwise count the mismatching positions over
the shorter length, add the length excess when the original is the longer
one, and divide by the length of the original. -/
def calculateBerText (originalText extractedText : Option (List Nat)) : ℚ :=
  match originalText, extractedText with
  | none, _ => 1
  | _, none => 1
  | some ot, some et =>
      let minLength := min ot.length et.length
      if minLength = 0 then 1
      else
        let errorCount := (List.range minLength).countP (fun i => ot.getD i 0 != et.getD i 0)
        let errorCount2 :=
          if minLength < ot.length then errorCount + (ot.length - minLength) else errorCount
        (errorCount2 : ℚ) / (ot.length : ℚ)

/-- Second definition, following the words of the claim rather than the
source, for the comparison that settles the berText claim: the claim says
any length excess in the longer of the two strings counts as additional
errors, normalized by the length of the original. -/
def berTextClaimed (originalText extractedText : Option (List Nat)) : ℚ :=
  match originalText, extractedText with
  | none, _ => 1
  | _, none => 1
  | some ot, some et =>
      let minLength := min ot.length et.length
      if minLength = 0 then 1
      else
        let errorCount := (List.range minLength).countP (fun i => ot.getD i 0 != et.getD i 0)
        let errorCount2 := errorCount + (max ot.length et.length - minLength)
        (errorCount2 : ℚ) / (ot.length : ℚ)

/-- The threshold at which the relaxation loop of
SobelAdaptiveSteganography.embed stops when no interim capacity test
succeeds: the requested threshold itself when it is not positive, else 0
when it is a multiple of 5, else (threshold mod 5) - 5, a negative value
whose mask is more permissive than the threshold-0 mask. -/
def endThreshold (thr : Int) : Int :=
  if 0 < thr then (if thr % 5 = 0 then 0 else thr % 5 - 5) else thr

/-- Two samples differ by at most one. -/
def closeBy1 (ab : Nat × Nat) : Bool :=
  decide (ab.1 - ab.2 ≤ 1) && decide (ab.2 - ab.1 ≤ 1)

/-! ### Concrete instances used by counterexamples and witnesses -/

/-- A 3 by 3 color image, all samples 0. -/
def cexColorImg : Img :=
  ⟨3, 3, 3, [[[0,0,0],[0,0,0],[0,0,0]],
             [[0,0,0],[0,0,0],[0,0,0]],
             [[0,0,0],[0,0,0],[0,0,0]]]⟩

/-- A 2 by 8 grayscale image, all samples 128 (16 slots). -/
def witGrayImg : Img :=
  ⟨2, 8, 1, [[[128],[128],[128],[128],[128],[128],[128],[128]],
             [[128],[128],[128],[128],[128],[128],[128],[128]]]⟩

/-- A constant 2 by 8 gradient map with every magnitude 50. -/
def witGrad : List (List Nat) :=
  [[50,50,50,50,50,50,50,50],[50,50,50,50,50,50,50,50]]

/-- A 4 by 4 gradient map with a single zero cell. -/
def cex5Grad : List (List Nat) :=
  [[0,10,10,10],[10,10,10,10],[10,10,10,10],[10,10,10,10]]

/-- A 4 by 4 grayscale image, all samples 0. -/
def cex5Img : Img :=
  ⟨4, 4, 1, [[[0],[0],[0],[0]],[[0],[0],[0],[0]],[[0],[0],[0],[0]],[[0],[0],[0],[0]]]⟩

/-- The 0 by 0 grayscale image. -/
def emptyGray : Img := ⟨0, 0, 1, []⟩

/-- A 1 by 1 grayscale image. -/
def oneGray : Img := ⟨1, 1, 1, [[[5]]]⟩

/-- A model of the JPEG write-decode round trip that satisfies the shape
contract of cv2.imwrite followed by cv2.imread (same height and width,
always 3 channels). -/
def witCodec : Img → Img := fun i => ⟨i.H, i.W, 3, i.rows⟩

/-- A model of cv2.resize satisfying its shape contract. -/
def witResize : Img → Nat → Nat → Img := fun i w h => ⟨h, w, i.C, i.rows⟩

/-- A model of cv2.GaussianBlur satisfying its shape contract. -/
def witBlur : Img → Nat → ℚ → Img := fun i _ _ => i

/-! ### Lemmas about the bit codec -/

theorem bitsToNat_append_one (xs : List Nat) (b : Nat) :
    bitsToNat (xs ++ [b]) = 2 * bitsToNat xs + b := by
  simp [bitsToNat, List.foldl_append]

theorem bitsToNat_cons_zero (t : List Nat) : bitsToNat (0 :: t) = bitsToNat t := by
  simp [bitsToNat]

theorem bitsToNat_replicate_zero (k : Nat) (bs : List Nat) :
    bitsToNat (List.replicate k 0 ++ bs) = bitsToNat bs := by
  induction k with
  | zero => simp
  | succ n ih =>
      rw [List.replicate_succ, List.cons_append, bitsToNat_cons_zero, ih]

theorem bitsToNat_natBinGo : ∀ fuel n, n ≤ fuel → bitsToNat (natBinGo fuel n) = n := by
  intro fuel
  induction fuel with
  | zero =>
      intro n h
      have hn : n = 0 := by omega
      subst hn; decide
  | succ f ih =>
      intro n h
      by_cases h2 : n < 2
      · simp only [natBinGo, if_pos h2]
        simp [bitsToNat]
      · simp only [natBinGo, if_neg h2]
        rw [bitsToNat_append_one, ih (n / 2) (by omega)]
        omega

theorem natBinGo_length_le : ∀ fuel k n, n ≤ fuel → n < 2 ^ k → 1 ≤ k →
    (natBinGo fuel n).length ≤ k := by
  intro fuel
  induction fuel with
  | zero =>
      intro k n h1 _ h3
      have hn : n = 0 := by omega
      subst hn; simpa [natBinGo] using h3
  | succ f ih =>
      intro k n h1 h2 h3
      by_cases hn : n < 2
      · simp only [natBinGo, if_pos hn]
        simpa using h3
      · simp only [natBinGo, if_neg hn, List.length_append, List.length_cons,
          List.length_nil]
        have hk2 : 2 ≤ k := by
          by_contra hk
          have : k = 1 := by omega
          subst this
          simp at h2; omega
        have hpow : (2 : Nat) ^ k = 2 ^ (k - 1) * 2 := by
          rw [← pow_succ]
          congr 1
          omega
        have := ih (k - 1) (n / 2) (by omega) (by omega) (by omega)
        omega

theorem natBinGo_mem_le_one : ∀ fuel n, n ≤ fuel → ∀ b ∈ natBinGo fuel n, b ≤ 1 := by
  intro fuel
  induction fuel with
  | zero =>
      intro n h b hb
      have hn : n = 0 := by omega
      subst hn; simp [natBinGo] at hb; omega
  | succ f ih =>
      intro n h b hb
      by_cases hn : n < 2
      · simp only [natBinGo, if_pos hn, List.mem_singleton] at hb
        omega
      · simp only [natBinGo, if_neg hn, List.mem_append, List.mem_singleton] at hb
        rcases hb with hb | hb
        · exact ih (n / 2) (by omega) b hb
        · omega

theorem bitsToNat_natBin (n : Nat) : bitsToNat (natBin n) = n :=
  bitsToNat_natBinGo n n le_rfl

theorem natBin_length_le (n : Nat) (h : n < 256) : (natBin n).length ≤ 8 :=
  natBinGo_length_le n 8 n le_rfl h (by omega)

theorem natBin_mem_le_one (n : Nat) : ∀ b ∈ natBin n, b ≤ 1 :=
  natBinGo_mem_le_one n n le_rfl

theorem toBin8_length (n : Nat) (h : n < 256) : (toBin8 n).length = 8 := by
  have := natBin_length_le n h
  simp only [toBin8, List.length_append, List.length_replicate]
  omega

theorem bitsToNat_toBin8 (n : Nat) : bitsToNat (toBin8 n) = n := by
  rw [toBin8, bitsToNat_replicate_zero, bitsToNat_natBin]

theorem toBin8_mem_le_one (n : Nat) : ∀ b ∈ toBin8 n, b ≤ 1 := by
  intro b hb
  rw [toBin8, List.mem_append] at hb
  rcases hb with hb | hb
  · rw [List.mem_replicate] at hb; omega
  · exact natBin_mem_le_one n b hb

theorem toBin8_ne_terminator (n : Nat) (h : n ≠ 0) :
    toBin8 n ≠ List.replicate 8 0 := by
  intro heq
  apply h
  have h1 := bitsToNat_toBin8 n
  rw [heq] at h1
  simpa using h1.symm

theorem flatten_map_toBin8_length (p : List Nat) (h : ∀ c ∈ p, c < 256) :
    ((p.map toBin8).flatten).length = 8 * p.length := by
  induction p with
  | nil => simp
  | cons c t ih =>
      rw [List.map_cons, List.flatten_cons, List.length_append,
        toBin8_length c (h c (List.mem_cons_self c t)),
        ih (fun x hx => h x (List.mem_cons_of_mem c hx))]
      simp only [List.length_cons]
      omega

theorem encodeBits_length (p : List Nat) (h : ∀ c ∈ p, c < 256) :
    (encodeBits p).length = 8 * (p.length + 1) := by
  rw [encodeBits, List.length_append, flatten_map_toBin8_length p h,
    List.length_replicate]
  ring

theorem encodeBits_mem_le_one (p : List Nat) : ∀ b ∈ encodeBits p, b ≤ 1 := by
  intro b hb
  rw [encodeBits, List.mem_append] at hb
  rcases hb with hb | hb
  · rw [List.mem_flatten] at hb
    obtain ⟨blk, hblk, hbin⟩ := hb
    rw [List.mem_map] at hblk
    obtain ⟨c, _, rfl⟩ := hblk
    exact toBin8_mem_le_one c b hbin
  · rw [List.mem_replicate] at hb; omega

theorem decodeBits_cons8 (b8 rest : List Nat) (h : b8.length = 8) :
    decodeBits (b8 ++ rest) = bitsToNat b8 :: decodeBits rest := by
  rcases b8 with _ | ⟨a0, b8⟩; · simp at h
  rcases b8 with _ | ⟨a1, b8⟩; · simp at h
  rcases b8 with _ | ⟨a2, b8⟩; · simp at h
  rcases b8 with _ | ⟨a3, b8⟩; · simp at h
  rcases b8 with _ | ⟨a4, b8⟩; · simp at h
  rcases b8 with _ | ⟨a5, b8⟩; · simp at h
  rcases b8 with _ | ⟨a6, b8⟩; · simp at h
  rcases b8 with _ | ⟨a7, b8⟩; · simp at h
  rcases b8 with _ | ⟨a8, b8⟩
  · rfl
  · simp at h

theorem decodeBits_flatten_toBin8 (p : List Nat) (h : ∀ c ∈ p, c < 256) :
    decodeBits ((p.map toBin8).flatten) = p := by
  induction p with
  | nil => rfl
  | cons c t ih =>
      rw [List.map_cons, List.flatten_cons,
        decodeBits_cons8 _ _ (toBin8_length c (h c (List.mem_cons_self c t))),
        bitsToNat_toBin8, ih (fun x hx => h x (List.mem_cons_of_mem c hx))]

theorem flatten_blocks_get : ∀ (blocks : List (List Nat)) (tail2 : List Nat) (j : Nat),
    (∀ b ∈ blocks, b.length = 8) → j < blocks.length →
    ((blocks.flatten ++ tail2).drop (8 * j)).take 8 = blocks.getD j [] := by
  intro blocks
  induction blocks with
  | nil => intro tail2 j _ hj; simp at hj
  | cons b bs ih =>
      intro tail2 j hb hj
      cases j with
      | zero =>
          have hlen : b.length = 8 := hb b (List.mem_cons_self b bs)
          rw [Nat.mul_zero, List.drop_zero, List.flatten_cons, List.append_assoc,
            List.take_append_of_le_length (by omega), List.getD_cons_zero, ← hlen,
            List.take_length]
      | succ j =>
          have hlen : b.length = 8 := hb b (List.mem_cons_self b bs)
          rw [List.flatten_cons, List.append_assoc, List.getD_cons_succ]
          have harith : 8 * (j + 1) = b.length + 8 * j := by omega
          rw [harith, List.drop_append]
          exact ih tail2 j (fun x hx => hb x (List.mem_cons_of_mem b hx)) (by simpa using hj)

theorem getD_mem_of_lt : ∀ (l : List Nat) (j : Nat), j < l.length → l.getD j 0 ∈ l := by
  intro l
  induction l with
  | nil => intro j hj; simp at hj
  | cons a t ih =>
      intro j hj
      cases j with
      | zero => simp
      | succ j =>
          rw [List.getD_cons_succ]
          exact List.mem_cons_of_mem a (ih j (by simpa using hj))

/-! ### Lemmas about the embedding loops -/

theorem embedFlat_nil_right : ∀ ss : List Nat, embedFlat ss [] = ss := by
  intro ss; cases ss <;> rfl

theorem embedFlat_nil_left : ∀ bs : List Nat, embedFlat [] bs = [] := by
  intro bs; cases bs <;> rfl

theorem embedFlat_cons_cons (s b : Nat) (ss bs : List Nat) :
    embedFlat (s :: ss) (b :: bs) = writeLsb s b :: embedFlat ss bs := rfl

theorem embedFlat_length : ∀ ss bs : List Nat, (embedFlat ss bs).length = ss.length := by
  intro ss
  induction ss with
  | nil => intro bs; rw [embedFlat_nil_left]
  | cons s ss ih =>
      intro bs
      cases bs with
      | nil => rw [embedFlat_nil_right]
      | cons b bs => rw [embedFlat_cons_cons, List.length_cons, List.length_cons, ih]

theorem embedFlat_append : ∀ xs ys bs : List Nat,
    embedFlat (xs ++ ys) bs = embedFlat xs bs ++ embedFlat ys (bs.drop xs.length) := by
  intro xs
  induction xs with
  | nil => intro ys bs; simp [embedFlat_nil_left]
  | cons x xs ih =>
      intro ys bs
      cases bs with
      | nil => simp [embedFlat_nil_right]
      | cons b bs =>
          rw [List.cons_append, embedFlat_cons_cons, embedFlat_cons_cons, ih,
            List.cons_append, List.length_cons, List.drop_succ_cons]

set_option maxRecDepth 8192 in
theorem writeLsb_div2 : ∀ s, s < 256 → ∀ b, b ≤ 1 → writeLsb s b / 2 = s / 2 := by decide

set_option maxRecDepth 8192 in
theorem writeLsb_mod2 : ∀ s, s < 256 → ∀ b, b ≤ 1 → writeLsb s b % 2 = b := by decide

set_option maxRecDepth 8192 in
theorem writeLsb_diff_le : ∀ s, s < 256 → ∀ b, b ≤ 1 →
    writeLsb s b - s ≤ 1 ∧ s - writeLsb s b ≤ 1 := by decide

theorem embedFlat_map_mod2 : ∀ bs ss : List Nat, (∀ s ∈ ss, s < 256) → (∀ b ∈ bs, b ≤ 1) →
    bs.length ≤ ss.length →
    (embedFlat ss bs).map (· % 2) = bs ++ (ss.drop bs.length).map (· % 2) := by
  intro bs
  induction bs with
  | nil => intro ss _ _ _; rw [embedFlat_nil_right]; simp
  | cons b bs ih =>
      intro ss hss hbs hlen
      cases ss with
      | nil => simp at hlen
      | cons s ss =>
          rw [embedFlat_cons_cons, List.map_cons, List.length_cons, List.drop_succ_cons,
            writeLsb_mod2 s (hss s (List.mem_cons_self s ss)) b (hbs b (List.mem_cons_self b bs)),
            List.cons_append,
            ih ss (fun x hx => hss x (List.mem_cons_of_mem s hx))
              (fun x hx => hbs x (List.mem_cons_of_mem b hx)) (by simpa using hlen)]

theorem embedFlat_map_div2 : ∀ bs ss : List Nat, (∀ s ∈ ss, s < 256) → (∀ b ∈ bs, b ≤ 1) →
    (embedFlat ss bs).map (· / 2) = ss.map (· / 2) := by
  intro bs
  induction bs with
  | nil => intro ss _ _; rw [embedFlat_nil_right]
  | cons b bs ih =>
      intro ss hss hbs
      cases ss with
      | nil => rw [embedFlat_nil_left]
      | cons s ss =>
          rw [embedFlat_cons_cons, List.map_cons, List.map_cons,
            writeLsb_div2 s (hss s (List.mem_cons_self s ss)) b (hbs b (List.mem_cons_self b bs)),
            ih ss (fun x hx => hss x (List.mem_cons_of_mem s hx))
              (fun x hx => hbs x (List.mem_cons_of_mem b hx))]

theorem embedPixList_snd : ∀ (pxs : List (List Nat)) (bs : List Nat),
    (embedPixList pxs bs).2 = bs.drop pxs.flatten.length := by
  intro pxs
  induction pxs with
  | nil => intro bs; rfl
  | cons px rest ih =>
      intro bs
      show (embedPixList rest (bs.drop px.length)).2 = _
      rw [ih, List.drop_drop, List.flatten_cons, List.length_append]

theorem embedPixList_flatten : ∀ (pxs : List (List Nat)) (bs : List Nat),
    (embedPixList pxs bs).1.flatten = embedFlat pxs.flatten bs := by
  intro pxs
  induction pxs with
  | nil => intro bs; simp [embedPixList, embedFlat_nil_left]
  | cons px rest ih =>
      intro bs
      show (embedFlat px bs :: (embedPixList rest (bs.drop px.length)).1).flatten = _
      rw [List.flatten_cons, ih, List.flatten_cons, embedFlat_append]

theorem embedPixList_map_length : ∀ (pxs : List (List Nat)) (bs : List Nat),
    (embedPixList pxs bs).1.map List.length = pxs.map List.length := by
  intro pxs
  induction pxs with
  | nil => intro bs; rfl
  | cons px rest ih =>
      intro bs
      show (embedFlat px bs :: (embedPixList rest (bs.drop px.length)).1).map List.length = _
      rw [List.map_cons, List.map_cons, embedFlat_length, ih]

theorem embedRows_snd : ∀ (rows : List (List (List Nat))) (bs : List Nat),
    (embedRows rows bs).2 = bs.drop rows.flatten.flatten.length := by
  intro rows
  induction rows with
  | nil => intro bs; rfl
  | cons r rest ih =>
      intro bs
      show (embedRows rest (embedPixList r bs).2).2 = _
      rw [ih, embedPixList_snd, List.drop_drop, List.flatten_cons, List.flatten_append,
        List.length_append]

theorem embedRows_flatten : ∀ (rows : List (List (List Nat))) (bs : List Nat),
    (embedRows rows bs).1.flatten.flatten = embedFlat rows.flatten.flatten bs := by
  intro rows
  induction rows with
  | nil => intro bs; simp [embedRows, embedFlat_nil_left]
  | cons r rest ih =>
      intro bs
      show ((embedPixList r bs).1 :: (embedRows rest (embedPixList r bs).2).1).flatten.flatten = _
      rw [List.flatten_cons, List.flatten_append, ih, embedPixList_snd, embedPixList_flatten,
        List.flatten_cons, List.flatten_append, embedFlat_append]

theorem embedRows_shape : ∀ (rows : List (List (List Nat))) (bs : List Nat),
    (embedRows rows bs).1.map (List.map List.length) =
      rows.map (List.map List.length) := by
  intro rows
  induction rows with
  | nil => intro bs; rfl
  | cons r rest ih =>
      intro bs
      show ((embedPixList r bs).1 :: (embedRows rest (embedPixList r bs).2).1).map _ = _
      rw [List.map_cons, List.map_cons, embedPixList_map_length, ih]

theorem all_length_of_map_length_eq {α β : Type} (A : List (List α)) (B : List (List β)) (c : Nat)
    (h : A.map List.length = B.map List.length) (hB : ∀ x ∈ B, x.length = c) :
    ∀ y ∈ A, y.length = c := by
  intro y hy
  have hmem : y.length ∈ A.map List.length := List.mem_map_of_mem List.length hy
  rw [h, List.mem_map] at hmem
  obtain ⟨x, hx, hxy⟩ := hmem
  rw [← hxy]
  exact hB x hx

theorem extractScan_eq_scanCore : ∀ (pixels : List (List Nat)) (acc : List Nat),
    LSBSteganography.extractScan pixels acc = scanCore pixels acc := by
  intro pixels
  induction pixels with
  | nil => intro acc; rfl
  | cons px rest ih =>
      intro acc
      have hiff :
          ((acc ++ px.map (· % 2)).length % 8 = 0 ∧
            (acc ++ px.map (· % 2)).drop ((acc ++ px.map (· % 2)).length - 8) =
              List.replicate 8 0) ↔
          ((acc ++ px.map (· % 2)).length % 8 = 0 ∧ 8 ≤ (acc ++ px.map (· % 2)).length ∧
            (acc ++ px.map (· % 2)).drop ((acc ++ px.map (· % 2)).length - 8) =
              List.replicate 8 0) := by
        constructor
        · rintro ⟨h1, h2⟩
          refine ⟨h1, ?_, h2⟩
          have := congrArg List.length h2
          rw [List.length_drop, List.length_replicate] at this
          omega
        · rintro ⟨h1, _, h3⟩
          exact ⟨h1, h3⟩
      show (if _ then _ else LSBSteganography.extractScan rest _) = (if _ then _ else _)
      rw [ih]
      exact if_congr hiff rfl rfl

theorem sextractScan_eq_scanCore : ∀ (pxs : List (List Nat)) (ms acc : List Nat),
    SobelAdaptiveSteganography.sextractScan (pxs.zip ms) acc =
      scanCore (maskedPixels pxs ms) acc := by
  intro pxs
  induction pxs with
  | nil => intro ms acc; rfl
  | cons px rest ih =>
      intro ms acc
      cases ms with
      | nil => rfl
      | cons m ms =>
          rw [List.zip_cons_cons]
          by_cases hm : m = 1
          · simp only [SobelAdaptiveSteganography.sextractScan, maskedPixels, scanCore,
              if_pos hm, ih]
          · simp only [SobelAdaptiveSteganography.sextractScan, maskedPixels,
              if_neg hm, ih]

/-! ### The round-trip core: scanning the LSB stream of an embedded image
recovers the payload.

The stream read back is the encoded bits followed by the untouched LSBs of
the remaining slots. The scanner tests for the terminator after every
pixel, i.e. after every multiple of the pixel group size c (1 for
grayscale, 3 for color); a test fires only at lengths that are multiples
of 8, where the trailing window is a whole byte of the encoding. While
that byte is a payload byte it is nonzero, so the scan continues; at the
end of the encoding (reachable exactly when c divides the encoded length)
the byte is the terminator and everything before it decodes to the
payload. -/

theorem scanCore_cons (px : List Nat) (rest : List (List Nat)) (acc : List Nat) :
    scanCore (px :: rest) acc =
      if (acc ++ px.map (· % 2)).length % 8 = 0 ∧ 8 ≤ (acc ++ px.map (· % 2)).length ∧
          (acc ++ px.map (· % 2)).drop ((acc ++ px.map (· % 2)).length - 8) =
            List.replicate 8 0 then
        decodeBits ((acc ++ px.map (· % 2)).take ((acc ++ px.map (· % 2)).length - 8))
      else scanCore rest (acc ++ px.map (· % 2)) := rfl

theorem map_getD_lt (f : Nat → List Nat) (l : List Nat) :
    ∀ j, j < l.length → (l.map f).getD j [] = f (l.getD j 0) := by
  induction l with
  | nil => intro j hj; simp at hj
  | cons a t ih =>
      intro j hj
      cases j with
      | zero => rfl
      | succ j =>
          rw [List.map_cons, List.getD_cons_succ, List.getD_cons_succ]
          exact ih j (by simpa using hj)

theorem scanCore_roundtrip (p : List Nat) (hch : ∀ x ∈ p, x ≠ 0 ∧ x < 256)
    (c : Nat) (hc : 0 < c) (hdvd : c ∣ 8 * (p.length + 1)) (tail2 : List Nat) :
    ∀ (pixels : List (List Nat)) (m : Nat),
      (∀ px ∈ pixels, px.length = c) → c ∣ m → m < 8 * (p.length + 1) →
      (pixels.map (fun px => px.map (· % 2))).flatten = (encodeBits p ++ tail2).drop m →
      scanCore pixels ((encodeBits p ++ tail2).take m) = p := by
  have hlt : ∀ x ∈ p, x < 256 := fun x hx => (hch x hx).2
  have hLen : (encodeBits p).length = 8 * (p.length + 1) := encodeBits_length p hlt
  have hBody : ((p.map toBin8).flatten).length = 8 * p.length :=
    flatten_map_toBin8_length p hlt
  have hSlen : 8 * (p.length + 1) ≤ (encodeBits p ++ tail2).length := by
    rw [List.length_append, hLen]; omega
  intro pixels
  induction pixels with
  | nil =>
      intro m _ _ hmlt hstream
      exfalso
      have := congrArg List.length hstream
      rw [List.length_drop] at this
      simp at this
      omega
  | cons px rest ih =>
      intro m hplen hdvdm hmlt hstream
      have hg : (px.map (· % 2)).length = c := by
        rw [List.length_map]; exact hplen px (List.mem_cons_self px rest)
      rw [List.map_cons, List.flatten_cons] at hstream
      have htake : ((encodeBits p ++ tail2).drop m).take c = px.map (· % 2) := by
        rw [← hstream, ← hg, List.take_left]
      have hdropc : ((rest.map (fun px => px.map (· % 2))).flatten) =
          (encodeBits p ++ tail2).drop (m + c) := by
        have h1 := congrArg (List.drop c) hstream
        rw [← hg, List.drop_left, hg] at h1
        rw [h1, List.drop_drop, Nat.add_comm]
      have hm2le : m + c ≤ 8 * (p.length + 1) := by
        obtain ⟨a, rfl⟩ := hdvdm
        obtain ⟨b, hb⟩ := hdvd
        have hab : a < b := by
          by_contra hba
          have : c * b ≤ c * a := Nat.mul_le_mul_left c (by omega)
          omega
        have h2 : c * (a + 1) ≤ c * b := Nat.mul_le_mul_left c (by omega)
        have h3 : c * (a + 1) = c * a + c := by ring
        omega
      have hacc2 : (encodeBits p ++ tail2).take m ++ px.map (· % 2) =
          (encodeBits p ++ tail2).take (m + c) := by
        rw [List.take_add, htake]
      have hlenacc : ((encodeBits p ++ tail2).take (m + c)).length = m + c := by
        rw [List.length_take]
        exact min_eq_left (le_trans hm2le hSlen)
      rw [scanCore_cons, hacc2, hlenacc]
      by_cases hend : m + c = 8 * (p.length + 1)
      · have hSL : (encodeBits p ++ tail2).take (m + c) = encodeBits p := by
          rw [hend, ← hLen, List.take_left]
        have hterm : m + c - 8 = 8 * p.length := by omega
        rw [if_pos]
        · rw [hSL, hterm, encodeBits, ← hBody, List.take_left]
          exact decodeBits_flatten_toBin8 p hlt
        · refine ⟨by omega, by omega, ?_⟩
          rw [hSL, hterm, encodeBits, ← hBody, List.drop_left]
      · have hm2lt : m + c < 8 * (p.length + 1) := lt_of_le_of_ne hm2le hend
        have hrec : scanCore rest ((encodeBits p ++ tail2).take (m + c)) = p :=
          ih (m + c) (fun x hx => hplen x (List.mem_cons_of_mem px hx))
            (Dvd.dvd.add hdvdm (dvd_refl c)) hm2lt hdropc
        by_cases h8 : (m + c) % 8 = 0
        · obtain ⟨t, ht⟩ : ∃ t, m + c = 8 * t := ⟨(m + c) / 8, by omega⟩
          have ht1 : 1 ≤ t := by omega
          have htn : t ≤ p.length := by omega
          have hplen1 : 1 ≤ p.length := by omega
          have hacc_take : (encodeBits p ++ tail2).take (m + c) =
              (encodeBits p).take (m + c) :=
            List.take_append_of_le_length (by omega)
          have heq8 : m + c - (m + c - 8) = 8 := by omega
          have hdrop8 : ((encodeBits p ++ tail2).take (m + c)).drop (m + c - 8) =
              ((encodeBits p).drop (m + c - 8)).take 8 := by
            rw [hacc_take, List.drop_take, heq8]
          have harith : m + c - 8 = 8 * (t - 1) := by omega
          have hbyte : ((encodeBits p).drop (8 * (t - 1))).take 8 =
              (p.map toBin8).getD (t - 1) [] := by
            rw [encodeBits]
            refine flatten_blocks_get (p.map toBin8) (List.replicate 8 0) (t - 1) ?_ ?_
            · intro b hb
              rw [List.mem_map] at hb
              obtain ⟨x, hx, rfl⟩ := hb
              exact toBin8_length x (hlt x hx)
            · rw [List.length_map]; omega
          have hbyte2 : (p.map toBin8).getD (t - 1) [] = toBin8 (p.getD (t - 1) 0) :=
            map_getD_lt toBin8 p (t - 1) (by omega)
          have hchar : p.getD (t - 1) 0 ≠ 0 :=
            (hch (p.getD (t - 1) 0) (getD_mem_of_lt p (t - 1) (by omega))).1
          rw [if_neg]
          · exact hrec
          · rintro ⟨_, _, hzero⟩
            rw [hdrop8, harith, hbyte, hbyte2] at hzero
            exact toBin8_ne_terminator (p.getD (t - 1) 0) hchar hzero
        · rw [if_neg (fun hcond => h8 hcond.1)]
          exact hrec

/-! ### From images to the flat stream -/

theorem flatten_map_map_mod2 (L : List (List Nat)) :
    (L.map (fun px => px.map (· % 2))).flatten = L.flatten.map (· % 2) := by
  induction L with
  | nil => rfl
  | cons px rest ih =>
      rw [List.map_cons, List.flatten_cons, List.flatten_cons, List.map_append, ih]

theorem sum_const_list (k : Nat) : ∀ l : List Nat, (∀ x ∈ l, x = k) → l.sum = l.length * k := by
  intro l
  induction l with
  | nil => intro _; simp
  | cons a t ih =>
      intro h
      rw [List.sum_cons, List.length_cons, ih (fun x hx => h x (List.mem_cons_of_mem a hx)),
        h a (List.mem_cons_self a t)]
      ring

theorem Img.mem_flat {img : Img} (hwf : img.wf) : ∀ s ∈ img.flat, s < 256 := by
  obtain ⟨_, _, _, hs⟩ := hwf
  intro s hsf
  rw [Img.flat, List.mem_flatten] at hsf
  obtain ⟨px, hpx, hspx⟩ := hsf
  rw [List.mem_flatten] at hpx
  obtain ⟨r, hr, hpxr⟩ := hpx
  exact hs r hr px hpxr s hspx

theorem Img.flat_pixels {img : Img} (hwf : img.wf) :
    ∀ px ∈ img.rows.flatten, px.length = img.C := by
  obtain ⟨_, _, hpx, _⟩ := hwf
  intro px hpxf
  rw [List.mem_flatten] at hpxf
  obtain ⟨r, hr, hpxr⟩ := hpxf
  exact hpx r hr px hpxr

theorem Img.flat_length {img : Img} (hwf : img.wf) :
    img.flat.length = img.H * img.W * img.C := by
  obtain ⟨hrows, hrowW, hpxC, _⟩ := hwf
  have hpxs : ∀ px ∈ img.rows.flatten, px.length = img.C := by
    intro px hpxf
    rw [List.mem_flatten] at hpxf
    obtain ⟨r, hr, hpxr⟩ := hpxf
    exact hpxC r hr px hpxr
  have h1 : img.rows.flatten.length = img.H * img.W := by
    rw [List.length_flatten]
    rw [sum_const_list img.W (img.rows.map List.length)
      (by intro x hx; rw [List.mem_map] at hx; obtain ⟨r, hr, rfl⟩ := hx; exact hrowW r hr)]
    rw [List.length_map, hrows]
  rw [Img.flat, List.length_flatten]
  rw [sum_const_list img.C (img.rows.flatten.map List.length)
    (by intro x hx; rw [List.mem_map] at hx; obtain ⟨px, hpx, rfl⟩ := hx; exact hpxs px hpx)]
  rw [List.length_map, h1]

theorem lsb_roundtrip_aux (img : Img) (p : List Nat) (hwf : img.wf)
    (hC : 0 < img.C) (hch : ∀ x ∈ p, x ≠ 0 ∧ x < 256)
    (hdvd : img.C ∣ 8 * (p.length + 1)) (hcap : 8 * (p.length + 1) ≤ img.flat.length) :
    (LSBSteganography.embed img p).map LSBSteganography.extract = .ok p := by
  have hlt : ∀ x ∈ p, x < 256 := fun x hx => (hch x hx).2
  have hLen : (encodeBits p).length = 8 * (p.length + 1) := encodeBits_length p hlt
  have hcap2 : ¬(img.flat.length < (encodeBits p).length) := by omega
  rw [LSBSteganography.embed]
  simp only [if_neg hcap2, Except.map]
  congr 1
  rw [LSBSteganography.extract, extractScan_eq_scanCore]
  have hbits : ∀ b ∈ encodeBits p, b ≤ 1 := encodeBits_mem_le_one p
  have hflat : (embedRows img.rows (encodeBits p)).1.flatten.flatten =
      embedFlat img.flat (encodeBits p) := embedRows_flatten img.rows (encodeBits p)
  have hstream :
      (((embedRows img.rows (encodeBits p)).1.flatten).map (fun px => px.map (· % 2))).flatten =
        (encodeBits p ++ (img.flat.drop (encodeBits p).length).map (· % 2)).drop 0 := by
    rw [List.drop_zero, flatten_map_map_mod2, hflat,
      embedFlat_map_mod2 (encodeBits p) img.flat (Img.mem_flat hwf) hbits (by omega)]
  have hplens : ∀ px ∈ (embedRows img.rows (encodeBits p)).1.flatten, px.length = img.C := by
    apply all_length_of_map_length_eq _ img.rows.flatten img.C
    · rw [List.map_flatten, List.map_flatten, embedRows_shape]
    · exact Img.flat_pixels hwf
  have hmain := scanCore_roundtrip p hch img.C hC hdvd
    ((img.flat.drop (encodeBits p).length).map (· % 2))
    ((embedRows img.rows (encodeBits p)).1.flatten) 0 hplens (dvd_zero img.C)
    (by omega) hstream
  rwa [List.take_zero] at hmain

/-! ### Lemmas about the masked (gradient-adaptive) embedding loops -/

namespace SobelAdaptiveSteganography

theorem sembedPixList_cons (px : List Nat) (rest : List (List Nat)) (m : Nat)
    (ms bs : List Nat) :
    sembedPixList (px :: rest) (m :: ms) bs =
      if bs ≠ [] ∧ m = 1 then
        (embedFlat px bs :: (sembedPixList rest ms (bs.drop px.length)).1,
         (sembedPixList rest ms (bs.drop px.length)).2)
      else
        (px :: (sembedPixList rest ms bs).1, (sembedPixList rest ms bs).2) := by
  rw [sembedPixList]

theorem embedFlat_of_nil_bits (px : List Nat) (bs : List Nat) (h : bs = []) :
    embedFlat px bs = px := by
  subst h; exact embedFlat_nil_right px

theorem sembedPixList_masked : ∀ (pxs : List (List Nat)) (ms bs : List Nat),
    maskedPixels (sembedPixList pxs ms bs).1 ms =
      (embedPixList (maskedPixels pxs ms) bs).1 := by
  intro pxs
  induction pxs with
  | nil =>
      intro ms bs
      cases ms <;> rfl
  | cons px rest ih =>
      intro ms bs
      cases ms with
      | nil => rfl
      | cons m ms =>
          rw [sembedPixList_cons]
          by_cases hcond : bs ≠ [] ∧ m = 1
          · rw [if_pos hcond]
            obtain ⟨hb, hm⟩ := hcond
            subst hm
            show maskedPixels (embedFlat px bs :: _) (1 :: ms) = _
            rw [maskedPixels, if_pos rfl, maskedPixels, if_pos rfl]
            show _ = (embedFlat px bs :: (embedPixList (maskedPixels rest ms) (bs.drop px.length)).1, (embedPixList (maskedPixels rest ms) (bs.drop px.length)).2).1
            rw [ih]
          · rw [if_neg hcond]
            by_cases hm : m = 1
            · subst hm
              have hb : bs = [] := by
                by_contra hb
                exact hcond ⟨hb, rfl⟩
              subst hb
              show maskedPixels (px :: _) (1 :: ms) = _
              rw [maskedPixels, if_pos rfl, maskedPixels, if_pos rfl]
              show px :: maskedPixels (sembedPixList rest ms []).1 ms =
                (embedFlat px [] :: (embedPixList (maskedPixels rest ms) ([].drop px.length)).1,
                 (embedPixList (maskedPixels rest ms) ([].drop px.length)).2).1
              rw [embedFlat_nil_right, List.drop_nil, ih]
            · show maskedPixels (px :: _) (m :: ms) = _
              rw [maskedPixels, if_neg hm, maskedPixels, if_neg hm, ih]

theorem sembedPixList_snd : ∀ (pxs : List (List Nat)) (ms bs : List Nat),
    (sembedPixList pxs ms bs).2 = bs.drop (maskedPixels pxs ms).flatten.length := by
  intro pxs
  induction pxs with
  | nil =>
      intro ms bs
      cases ms <;> rfl
  | cons px rest ih =>
      intro ms bs
      cases ms with
      | nil => rfl
      | cons m ms =>
          rw [sembedPixList_cons]
          by_cases hcond : bs ≠ [] ∧ m = 1
          · rw [if_pos hcond]
            obtain ⟨hb, hm⟩ := hcond
            subst hm
            show (sembedPixList rest ms (bs.drop px.length)).2 = _
            rw [ih, List.drop_drop, maskedPixels, if_pos rfl, List.flatten_cons,
              List.length_append, Nat.add_comm]
          · rw [if_neg hcond]
            by_cases hm : m = 1
            · subst hm
              have hb : bs = [] := by
                by_contra hb
                exact hcond ⟨hb, rfl⟩
              subst hb
              show (sembedPixList rest ms []).2 = _
              rw [ih, List.drop_nil, List.drop_nil]
            · show (sembedPixList rest ms bs).2 = _
              rw [ih, maskedPixels, if_neg hm]

theorem sembedPixList_shape : ∀ (pxs : List (List Nat)) (ms bs : List Nat),
    (sembedPixList pxs ms bs).1.map List.length = pxs.map List.length := by
  intro pxs
  induction pxs with
  | nil =>
      intro ms bs
      cases ms <;> rfl
  | cons px rest ih =>
      intro ms bs
      cases ms with
      | nil => rfl
      | cons m ms =>
          rw [sembedPixList_cons]
          by_cases hcond : bs ≠ [] ∧ m = 1
          · rw [if_pos hcond]
            show (embedFlat px bs :: (sembedPixList rest ms (bs.drop px.length)).1).map _ = _
            rw [List.map_cons, List.map_cons, embedFlat_length, ih]
          · rw [if_neg hcond]
            show (px :: (sembedPixList rest ms bs).1).map _ = _
            rw [List.map_cons, List.map_cons, ih]

theorem sembedPixList_append : ∀ (xs : List (List Nat)) (ms1 : List Nat)
    (ys : List (List Nat)) (ms2 bs : List Nat), xs.length = ms1.length →
    sembedPixList (xs ++ ys) (ms1 ++ ms2) bs =
      ((sembedPixList xs ms1 bs).1 ++ (sembedPixList ys ms2 (sembedPixList xs ms1 bs).2).1,
       (sembedPixList ys ms2 (sembedPixList xs ms1 bs).2).2) := by
  intro xs
  induction xs with
  | nil =>
      intro ms1 ys ms2 bs hlen
      have : ms1 = [] := by
        cases ms1
        · rfl
        · simp at hlen
      subst this
      rfl
  | cons x xs ih =>
      intro ms1 ys ms2 bs hlen
      cases ms1 with
      | nil => simp at hlen
      | cons m ms1 =>
          rw [List.cons_append, List.cons_append, sembedPixList_cons, sembedPixList_cons]
          by_cases hcond : bs ≠ [] ∧ m = 1
          · rw [if_pos hcond, if_pos hcond,
              ih ms1 ys ms2 (bs.drop x.length) (by simpa using hlen)]
            rfl
          · rw [if_neg hcond, if_neg hcond, ih ms1 ys ms2 bs (by simpa using hlen)]
            rfl

theorem sembedRows_flat : ∀ (rows : List (List (List Nat))) (mrows : List (List Nat))
    (bs : List Nat), List.Forall₂ (fun (r : List (List Nat)) (mr : List Nat) =>
      r.length = mr.length) rows mrows →
    (sembedRows rows mrows bs).1.flatten = (sembedPixList rows.flatten mrows.flatten bs).1 ∧
    (sembedRows rows mrows bs).2 = (sembedPixList rows.flatten mrows.flatten bs).2 := by
  intro rows
  induction rows with
  | nil =>
      intro mrows bs h
      cases h
      exact ⟨rfl, rfl⟩
  | cons r rest ih =>
      intro mrows bs h
      cases h with
      | cons hlen htail =>
          rename_i mr mrest
          have hih := ih mrest (sembedPixList r mr bs).2 htail
          constructor
          · show ((sembedPixList r mr bs).1 :: (sembedRows rest mrest (sembedPixList r mr bs).2).1).flatten = _
            rw [List.flatten_cons, hih.1, List.flatten_cons, List.flatten_cons,
              sembedPixList_append r mr rest.flatten mrest.flatten bs hlen]
          · show (sembedRows rest mrest (sembedPixList r mr bs).2).2 = _
            rw [hih.2, List.flatten_cons, List.flatten_cons,
              sembedPixList_append r mr rest.flatten mrest.flatten bs hlen]

theorem sembedRows_shape : ∀ (rows : List (List (List Nat))) (mrows : List (List Nat))
    (bs : List Nat),
    (sembedRows rows mrows bs).1.map (List.map List.length) =
      rows.map (List.map List.length) := by
  intro rows
  induction rows with
  | nil =>
      intro mrows bs
      cases mrows <;> rfl
  | cons r rest ih =>
      intro mrows bs
      cases mrows with
      | nil => rfl
      | cons mr mrest =>
          show ((sembedPixList r mr bs).1 :: (sembedRows rest mrest _).1).map _ = _
          rw [List.map_cons, List.map_cons, sembedPixList_shape, ih]

theorem createEmbeddingMask_mem_le_one (g : List (List Nat)) (thr : Int) :
    ∀ m ∈ (createEmbeddingMask g thr).flatten, m ≤ 1 := by
  intro m hm
  rw [List.mem_flatten] at hm
  obtain ⟨r, hr, hmr⟩ := hm
  rw [createEmbeddingMask, List.mem_map] at hr
  obtain ⟨gr, _, rfl⟩ := hr
  rw [List.mem_map] at hmr
  obtain ⟨v, _, rfl⟩ := hmr
  split <;> omega

theorem createEmbeddingMask_length (g : List (List Nat)) (thr : Int) :
    (createEmbeddingMask g thr).length = g.length := by
  rw [createEmbeddingMask, List.length_map]

theorem createEmbeddingMask_rowlen (g : List (List Nat)) (thr : Int) (w : Nat)
    (hW : ∀ r ∈ g, r.length = w) :
    ∀ r ∈ createEmbeddingMask g thr, r.length = w := by
  intro r hr
  rw [createEmbeddingMask, List.mem_map] at hr
  obtain ⟨gr, hgr, rfl⟩ := hr
  simp only [List.length_map]
  exact hW gr hgr

end SobelAdaptiveSteganography

theorem sum_flatten_list : ∀ L : List (List Nat), L.flatten.sum = (L.map List.sum).sum := by
  intro L
  induction L with
  | nil => rfl
  | cons r rest ih => rw [List.flatten_cons, List.sum_append, List.map_cons, List.sum_cons, ih]

theorem maskSum_eq_flatten_sum (mask : List (List Nat)) :
    SobelAdaptiveSteganography.maskSum mask = mask.flatten.sum := by
  rw [SobelAdaptiveSteganography.maskSum, sum_flatten_list]

theorem availableCapacity_eq (c : Nat) (mask : List (List Nat)) (hc : c = 1 ∨ c = 3) :
    SobelAdaptiveSteganography.availableCapacity c mask =
      SobelAdaptiveSteganography.maskSum mask * c := by
  rcases hc with hc | hc <;> subst hc
  · rw [SobelAdaptiveSteganography.availableCapacity, if_neg (by omega), Nat.mul_one]
  · rw [SobelAdaptiveSteganography.availableCapacity, if_pos rfl]

theorem maskedPixels_length : ∀ (pxs : List (List Nat)) (ms : List Nat),
    pxs.length = ms.length → (∀ m ∈ ms, m ≤ 1) →
    (maskedPixels pxs ms).length = ms.sum := by
  intro pxs
  induction pxs with
  | nil =>
      intro ms hlen _
      have : ms = [] := by
        cases ms
        · rfl
        · simp at hlen
      subst this; rfl
  | cons px rest ih =>
      intro ms hlen hms
      cases ms with
      | nil => simp at hlen
      | cons m ms =>
          rw [maskedPixels]
          by_cases hm : m = 1
          · rw [if_pos hm, List.length_cons,
              ih ms (by simpa using hlen) (fun x hx => hms x (List.mem_cons_of_mem m hx)),
              List.sum_cons, hm, Nat.add_comm]
          · have hm0 : m = 0 := by
              have := hms m (List.mem_cons_self m ms)
              omega
            rw [if_neg hm,
              ih ms (by simpa using hlen) (fun x hx => hms x (List.mem_cons_of_mem m hx)),
              List.sum_cons, hm0, Nat.zero_add]

theorem maskedPixels_mem : ∀ (pxs : List (List Nat)) (ms : List Nat) (px : List Nat),
    px ∈ maskedPixels pxs ms → px ∈ pxs := by
  intro pxs
  induction pxs with
  | nil =>
      intro ms px hm
      cases ms <;> simp [maskedPixels] at hm
  | cons q rest ih =>
      intro ms px hm
      cases ms with
      | nil => simp [maskedPixels] at hm
      | cons m ms =>
          rw [maskedPixels] at hm
          by_cases h1 : m = 1
          · rw [if_pos h1] at hm
            rcases List.mem_cons.mp hm with h | h
            · exact h ▸ List.mem_cons_self q rest
            · exact List.mem_cons_of_mem q (ih ms px h)
          · rw [if_neg h1] at hm
            exact List.mem_cons_of_mem q (ih ms px hm)

theorem maskedPixels_flatten_length (pxs : List (List Nat)) (ms : List Nat) (c : Nat)
    (hlen : pxs.length = ms.length) (hms : ∀ m ∈ ms, m ≤ 1)
    (hc : ∀ px ∈ pxs, px.length = c) :
    (maskedPixels pxs ms).flatten.length = ms.sum * c := by
  rw [List.length_flatten,
    sum_const_list c ((maskedPixels pxs ms).map List.length)
      (by
        intro x hx
        rw [List.mem_map] at hx
        obtain ⟨px, hpx, rfl⟩ := hx
        exact hc px (maskedPixels_mem pxs ms px hpx)),
    List.length_map, maskedPixels_length pxs ms hlen hms]

theorem zip_rows_flatten {α β : Type} : ∀ (rows : List (List α)) (mrows : List (List β)),
    List.Forall₂ (fun (r : List α) (mr : List β) => r.length = mr.length) rows mrows →
    ((rows.zip mrows).map (fun rm => rm.1.zip rm.2)).flatten = rows.flatten.zip mrows.flatten := by
  intro rows
  induction rows with
  | nil =>
      intro mrows h
      cases h; rfl
  | cons r rest ih =>
      intro mrows h
      cases h with
      | cons hlen htail =>
          rename_i mr mrest
          rw [List.zip_cons_cons, List.map_cons, List.flatten_cons, List.flatten_cons,
            List.flatten_cons, List.zip_append hlen, ih mrest htail]

theorem forall2_length_const {α β : Type} : ∀ (A : List (List α)) (B : List (List β)) (w : Nat),
    A.length = B.length → (∀ a ∈ A, a.length = w) → (∀ b ∈ B, b.length = w) →
    List.Forall₂ (fun (a : List α) (b : List β) => a.length = b.length) A B := by
  intro A
  induction A with
  | nil =>
      intro B w hlen _ _
      have : B = [] := by
        cases B
        · rfl
        · simp at hlen
      subst this
      exact List.Forall₂.nil
  | cons a A ih =>
      intro B w hlen hA hB
      cases B with
      | nil => simp at hlen
      | cons b B =>
          refine List.Forall₂.cons ?_ ?_
          · rw [hA a (List.mem_cons_self a A), hB b (List.mem_cons_self b B)]
          · exact ih B w (by simpa using hlen)
              (fun x hx => hA x (List.mem_cons_of_mem a hx))
              (fun x hx => hB x (List.mem_cons_of_mem b hx))

theorem map_length_of_shape {α : Type} (A B : List (List (List α)))
    (h : A.map (List.map List.length) = B.map (List.map List.length)) :
    A.map List.length = B.map List.length := by
  have h2 := congrArg (List.map List.length) h
  rw [List.map_map, List.map_map] at h2
  have he : (List.length ∘ List.map (List.length (α := α))) = List.length := by
    funext x
    exact List.length_map x List.length
  rwa [he] at h2

theorem Img.rows_flatten_length {img : Img} (hwf : img.wf) :
    img.rows.flatten.length = img.H * img.W := by
  obtain ⟨hrows, hrowW, _, _⟩ := hwf
  rw [List.length_flatten,
    sum_const_list img.W (img.rows.map List.length)
      (by intro x hx; rw [List.mem_map] at hx; obtain ⟨r, hr, rfl⟩ := hx; exact hrowW r hr),
    List.length_map, hrows]

namespace SobelAdaptiveSteganography

theorem embed_ok (gradFn : Img → List (List Nat)) (img : Img) (p : List Nat) (thr : Int)
    (hcap2 : ¬(availableCapacity img.C (createEmbeddingMask (gradFn img)
      (relaxThreshold (gradFn img) img.C (encodeBits p).length thr)) < (encodeBits p).length)) :
    embed gradFn img p thr = .ok ⟨img.H, img.W, img.C,
      (sembedRows img.rows (createEmbeddingMask (gradFn img)
        (relaxThreshold (gradFn img) img.C (encodeBits p).length thr)) (encodeBits p)).1⟩ := by
  simp only [embed]
  rw [if_neg hcap2]

theorem roundtrip_aux (gradFn : Img → List (List Nat)) (img : Img) (p : List Nat)
    (thr : Int) (hwf : img.wf) (hC : img.C = 1 ∨ img.C = 3)
    (hch : ∀ x ∈ p, x ≠ 0 ∧ x < 256) (hdvd : img.C ∣ 8 * (p.length + 1))
    (hgH : (gradFn img).length = img.H) (hgW : ∀ r ∈ gradFn img, r.length = img.W)
    (hcap : 8 * (p.length + 1) ≤ availableCapacity img.C (createEmbeddingMask (gradFn img)
      (relaxThreshold (gradFn img) img.C (encodeBits p).length thr)))
    (hmask : createEmbeddingMask
        (gradFn ((embed gradFn img p thr).toOption.getD img)) thr =
      createEmbeddingMask (gradFn img)
        (relaxThreshold (gradFn img) img.C (encodeBits p).length thr)) :
    (embed gradFn img p thr).map (fun st => extract gradFn st thr) = .ok p := by
  have hC0 : 0 < img.C := by rcases hC with h | h <;> omega
  have hlt : ∀ x ∈ p, x < 256 := fun x hx => (hch x hx).2
  have hLen : (encodeBits p).length = 8 * (p.length + 1) := encodeBits_length p hlt
  have hcap2 : ¬(availableCapacity img.C (createEmbeddingMask (gradFn img)
      (relaxThreshold (gradFn img) img.C (encodeBits p).length thr)) < (encodeBits p).length) := by
    omega
  have hM1 : ∀ m ∈ (createEmbeddingMask (gradFn img)
      (relaxThreshold (gradFn img) img.C (encodeBits p).length thr)).flatten, m ≤ 1 :=
    createEmbeddingMask_mem_le_one (gradFn img) _
  have hMH : (createEmbeddingMask (gradFn img)
      (relaxThreshold (gradFn img) img.C (encodeBits p).length thr)).length = img.H := by
    rw [createEmbeddingMask_length, hgH]
  have hMW : ∀ r ∈ createEmbeddingMask (gradFn img)
      (relaxThreshold (gradFn img) img.C (encodeBits p).length thr), r.length = img.W :=
    createEmbeddingMask_rowlen (gradFn img) _ img.W hgW
  have hok := embed_ok gradFn img p thr hcap2
  rw [hok] at hmask ⊢
  simp only [Except.map]
  congr 1
  simp only [Except.toOption, Option.getD] at hmask
  set M := createEmbeddingMask (gradFn img)
    (relaxThreshold (gradFn img) img.C (encodeBits p).length thr) with hMdef
  rw [extract]
  rw [hmask]
  have hSRshape := sembedRows_shape img.rows M (encodeBits p)
  have hSRlen : (sembedRows img.rows M (encodeBits p)).1.length = img.rows.length := by
    have h2 := congrArg List.length hSRshape
    simpa using h2
  have hSRW : ∀ r ∈ (sembedRows img.rows M (encodeBits p)).1, r.length = img.W :=
    all_length_of_map_length_eq _ img.rows img.W
      (map_length_of_shape _ _ hSRshape) hwf.2.1
  have hf2 : List.Forall₂ (fun (r : List (List Nat)) (mr : List Nat) =>
      r.length = mr.length) (sembedRows img.rows M (encodeBits p)).1 M :=
    forall2_length_const _ M img.W (by rw [hSRlen, hwf.1, hMH]) hSRW hMW
  show sextractScan ((((sembedRows img.rows M (encodeBits p)).1.zip M).map
    (fun rm => rm.1.zip rm.2)).flatten) [] = p
  rw [zip_rows_flatten _ M hf2]
  have hf2b : List.Forall₂ (fun (r : List (List Nat)) (mr : List Nat) =>
      r.length = mr.length) img.rows M :=
    forall2_length_const img.rows M img.W (by rw [hwf.1, hMH]) hwf.2.1 hMW
  rw [(sembedRows_flat img.rows M (encodeBits p) hf2b).1, sextractScan_eq_scanCore,
    sembedPixList_masked]
  have hMPmem : ∀ px ∈ maskedPixels img.rows.flatten M.flatten, px ∈ img.rows.flatten :=
    fun px hpx => maskedPixels_mem _ _ px hpx
  have hMPlen : ∀ px ∈ maskedPixels img.rows.flatten M.flatten, px.length = img.C :=
    fun px hpx => Img.flat_pixels hwf px (hMPmem px hpx)
  have hsamp : ∀ s ∈ (maskedPixels img.rows.flatten M.flatten).flatten, s < 256 := by
    intro s hs
    rw [List.mem_flatten] at hs
    obtain ⟨px, hpx, hspx⟩ := hs
    apply Img.mem_flat hwf
    rw [Img.flat, List.mem_flatten]
    exact ⟨px, hMPmem px hpx, hspx⟩
  have hMflat : M.flatten.length = img.H * img.W := by
    rw [List.length_flatten,
      sum_const_list img.W (M.map List.length)
        (by intro x hx; rw [List.mem_map] at hx; obtain ⟨r, hr, rfl⟩ := hx; exact hMW r hr),
      List.length_map, hMH]
  have hMPflatlen : (maskedPixels img.rows.flatten M.flatten).flatten.length =
      M.flatten.sum * img.C :=
    maskedPixels_flatten_length img.rows.flatten M.flatten img.C
      (by rw [Img.rows_flatten_length hwf, hMflat]) hM1 (Img.flat_pixels hwf)
  have hcapM : (encodeBits p).length ≤ (maskedPixels img.rows.flatten M.flatten).flatten.length := by
    rw [hMPflatlen]
    have h1 : availableCapacity img.C M = maskSum M * img.C := availableCapacity_eq img.C M hC
    rw [maskSum_eq_flatten_sum] at h1
    omega
  have hplens : ∀ px ∈ (embedPixList (maskedPixels img.rows.flatten M.flatten)
      (encodeBits p)).1, px.length = img.C :=
    all_length_of_map_length_eq _ (maskedPixels img.rows.flatten M.flatten) img.C
      (embedPixList_map_length _ _) hMPlen
  have hstream :
      (((embedPixList (maskedPixels img.rows.flatten M.flatten) (encodeBits p)).1.map
        (fun px => px.map (· % 2))).flatten) =
      (encodeBits p ++ ((maskedPixels img.rows.flatten M.flatten).flatten.drop
        (encodeBits p).length).map (· % 2)).drop 0 := by
    rw [List.drop_zero, flatten_map_map_mod2, embedPixList_flatten,
      embedFlat_map_mod2 (encodeBits p) _ hsamp (encodeBits_mem_le_one p) hcapM]
  have hmain := scanCore_roundtrip p hch img.C hC0 hdvd
    (((maskedPixels img.rows.flatten M.flatten).flatten.drop (encodeBits p).length).map (· % 2))
    ((embedPixList (maskedPixels img.rows.flatten M.flatten) (encodeBits p)).1) 0
    hplens (dvd_zero img.C) (by omega) hstream
  rwa [List.take_zero] at hmain

end SobelAdaptiveSteganography

/-! ### Claim C1: round trip -/

/-- Claim C1, amended. Extraction after embedding returns the payload
under the stated hypotheses (payload characters nonzero and below 256,
encoded bits within capacity) PLUS the amendments the code forces: the
channel count must divide the encoded bit length 8*(len+1) — automatic
for grayscale, but a genuine restriction (3 divides len+1) for color,
because the color extractor only tests for the terminator after whole
pixels, at bit counts that are multiples of 3 — and for the
gradient-adaptive engine the mask recomputed on the stego image at the
requested threshold must coincide with the mask used at embed time (the
gradient function is a parameter standing for compute_sobel_gradient). -/
theorem claim_C1_roundtrip_amended :
    (∀ (img : Img) (p : List Nat), img.wf → (img.C = 1 ∨ img.C = 3) →
      (∀ x ∈ p, x ≠ 0 ∧ x < 256) → img.C ∣ 8 * (p.length + 1) →
      8 * (p.length + 1) ≤ img.flat.length →
      (LSBSteganography.embed img p).map LSBSteganography.extract = .ok p) ∧
    (∀ (gradFn : Img → List (List Nat)) (img : Img) (p : List Nat) (thr : Int),
      img.wf → (img.C = 1 ∨ img.C = 3) → (∀ x ∈ p, x ≠ 0 ∧ x < 256) →
      img.C ∣ 8 * (p.length + 1) →
      (gradFn img).length = img.H → (∀ r ∈ gradFn img, r.length = img.W) →
      8 * (p.length + 1) ≤ SobelAdaptiveSteganography.availableCapacity img.C
        (SobelAdaptiveSteganography.createEmbeddingMask (gradFn img)
          (SobelAdaptiveSteganography.relaxThreshold (gradFn img) img.C
            (encodeBits p).length thr)) →
      SobelAdaptiveSteganography.createEmbeddingMask
          (gradFn ((SobelAdaptiveSteganography.embed gradFn img p thr).toOption.getD img)) thr =
        SobelAdaptiveSteganography.createEmbeddingMask (gradFn img)
          (SobelAdaptiveSteganography.relaxThreshold (gradFn img) img.C
            (encodeBits p).length thr) →
      (SobelAdaptiveSteganography.embed gradFn img p thr).map
        (fun st => SobelAdaptiveSteganography.extract gradFn st thr) = .ok p) :=
  ⟨fun img p hwf hC hch hdvd hcap =>
      lsb_roundtrip_aux img p hwf (by rcases hC with h | h <;> omega) hch hdvd hcap,
   fun gradFn img p thr hwf hC hch hdvd hgH hgW hcap hmask =>
      SobelAdaptiveSteganography.roundtrip_aux gradFn img p thr hwf hC hch hdvd hgH hgW
        hcap hmask⟩

set_option maxRecDepth 8192 in
/-- Claim C1, counterexample to the claim as stated: a 3 by 3 color image
of zeros and the one-character payload "A" satisfy every hypothesis of the
claim (no zero character, code points below 256, 16 encoded bits within
the 27-slot capacity), yet extraction returns the payload followed by a
spurious zero character, because the terminator at bit offset 16 is never
aligned with a per-pixel check (multiples of 3) and the all-zero cover
LSBs first satisfy the byte test at bit count 24. -/
theorem claim_C1_counterexample :
    cexColorImg.wf ∧ (∀ x ∈ ([65] : List Nat), x ≠ 0 ∧ x < 256) ∧
    8 * (([65] : List Nat).length + 1) ≤ cexColorImg.flat.length ∧
    (LSBSteganography.embed cexColorImg [65]).map LSBSteganography.extract = .ok [65, 0] ∧
    (LSBSteganography.embed cexColorImg [65]).map LSBSteganography.extract ≠ .ok [65] := by
  decide

set_option maxRecDepth 8192 in
/-- Claim C1, witness: the amended round trip evaluated on a 2 by 8
grayscale image for both engines. -/
theorem claim_C1_witness :
    (LSBSteganography.embed witGrayImg [65]).map LSBSteganography.extract = .ok [65] ∧
    (SobelAdaptiveSteganography.embed (fun _ => witGrad) witGrayImg [65] 30).map
      (fun st => SobelAdaptiveSteganography.extract (fun _ => witGrad) st 30) = .ok [65] :=
  ⟨claim_C1_roundtrip_amended.1 witGrayImg [65] (by decide) (by decide) (by decide)
      (by decide) (by decide),
   claim_C1_roundtrip_amended.2 (fun _ => witGrad) witGrayImg [65] 30 (by decide)
      (by decide) (by decide) (by decide) (by decide) (by decide) (by decide) (by decide)⟩

/-! ### Claim C9: LSB capacity -/

/-- Claim C9: get_embedding_capacity returns (H*W*3)/8 bytes for a color
image and (H*W)/8 for a grayscale image; in both cases this is the
flattened slot count divided by 8. -/
theorem claim_C9_capacity (img : Img) (hwf : img.wf) :
    (img.C = 3 → LSBSteganography.getEmbeddingCapacity img = img.H * img.W * 3 / 8 ∧
      LSBSteganography.getEmbeddingCapacity img = img.flat.length / 8) ∧
    (img.C = 1 → LSBSteganography.getEmbeddingCapacity img = img.H * img.W / 8 ∧
      LSBSteganography.getEmbeddingCapacity img = img.flat.length / 8) := by
  constructor
  · intro h3
    have hcap : LSBSteganography.getEmbeddingCapacity img = img.H * img.W * 3 / 8 := by
      rw [LSBSteganography.getEmbeddingCapacity, if_neg (by omega), if_pos h3]
    exact ⟨hcap, by rw [hcap, Img.flat_length hwf, h3]⟩
  · intro h1
    have hcap : LSBSteganography.getEmbeddingCapacity img = img.H * img.W / 8 := by
      rw [LSBSteganography.getEmbeddingCapacity, if_pos h1]
    exact ⟨hcap, by rw [hcap, Img.flat_length hwf, h1, Nat.mul_one]⟩

/-- Claim C9, witness: capacity of the 3 by 3 color instance and the
2 by 8 grayscale instance. -/
theorem claim_C9_witness :
    (LSBSteganography.getEmbeddingCapacity cexColorImg = 3 * 3 * 3 / 8 ∧
     LSBSteganography.getEmbeddingCapacity cexColorImg = cexColorImg.flat.length / 8) ∧
    (LSBSteganography.getEmbeddingCapacity witGrayImg = 2 * 8 / 8 ∧
     LSBSteganography.getEmbeddingCapacity witGrayImg = witGrayImg.flat.length / 8) :=
  ⟨(claim_C9_capacity cexColorImg (by decide)).1 (by decide),
   (claim_C9_capacity witGrayImg (by decide)).2 (by decide)⟩

/-! ### Claim C4: LSB capacity error -/

/-- Claim C4, amended. LSBSteganography.embed raises exactly when the
slot count is smaller than the ACTUAL encoded bit length — which equals
8*(len+1) only when every character is below 256, since characters above
255 contribute more than 8 bits; when the encoded length equals the slot
count exactly, embedding succeeds. The capacity test precedes the
construction of the stego copy, and the embedding is pure, so the cover
is never modified in any case. -/
theorem claim_C4_capacity_error_amended :
    (∀ (img : Img) (p : List Nat),
      LSBSteganography.embed img p = .error .capacity ↔
        img.flat.length < (encodeBits p).length) ∧
    (∀ p : List Nat, (∀ x ∈ p, x < 256) → (encodeBits p).length = 8 * (p.length + 1)) ∧
    (∀ (img : Img) (p : List Nat), (encodeBits p).length = img.flat.length →
      (LSBSteganography.embed img p).isOk = true) := by
  refine ⟨?_, fun p h => encodeBits_length p h, ?_⟩
  · intro img p
    simp only [LSBSteganography.embed]
    by_cases hcap : img.flat.length < (encodeBits p).length
    · rw [if_pos hcap]
      simp [hcap]
    · rw [if_neg hcap]
      simp [hcap]
  · intro img p heq
    simp only [LSBSteganography.embed]
    rw [if_neg (by omega)]
    rfl

/-- Claim C4, counterexample to the claim as stated: the payload
consisting of the single character with code point 256 encodes to 17
bits, so on a 16-slot grayscale image embed raises CapacityError even
though the length 8*(len+1) = 16 of the claim does not exceed the slot
count. -/
theorem claim_C4_counterexample :
    LSBSteganography.embed witGrayImg [256] = .error .capacity ∧
    8 * (([256] : List Nat).length + 1) ≤ witGrayImg.flat.length := by
  decide

/-- Claim C4, witness: the amended characterization evaluated at concrete
inputs (success at exact capacity, error beyond it, and the length
formula). -/
theorem claim_C4_witness :
    (LSBSteganography.embed witGrayImg [65]).isOk = true ∧
    LSBSteganography.embed cexColorImg [70, 70, 70] = .error .capacity ∧
    (encodeBits [72, 105]).length = 8 * (2 + 1) :=
  ⟨claim_C4_capacity_error_amended.2.2 witGrayImg [65] (by decide),
   (claim_C4_capacity_error_amended.1 cexColorImg [70, 70, 70]).mpr (by decide),
   claim_C4_capacity_error_amended.2.1 [72, 105] (by decide)⟩

/-! ### Claim C3: the bit encoding -/

/-- Claim C3, amended. Each character with code point below 256 maps to
exactly its 8-bit big-endian representation (value recoverable, width 8);
the blocks are concatenated in payload order and followed by the all-zero
terminator; the total length is 8*(len+1) when every code point is at
most 255. The amendment: format(ord(c), "08b") does NOT truncate, so a
character with code point above 255 contributes its full, longer binary
representation and the length formula fails for such payloads. -/
theorem claim_C3_encoding_amended :
    (∀ p : List Nat, (∀ x ∈ p, x < 256) → (encodeBits p).length = 8 * (p.length + 1)) ∧
    (∀ x : Nat, x < 256 → (toBin8 x).length = 8 ∧ bitsToNat (toBin8 x) = x) ∧
    (∀ p : List Nat, encodeBits p = (p.map toBin8).flatten ++ List.replicate 8 0) ∧
    (∀ p : List Nat, (∀ x ∈ p, x < 256) →
      (encodeBits p).drop (8 * p.length) = List.replicate 8 0) := by
  refine ⟨fun p h => encodeBits_length p h,
    fun x hx => ⟨toBin8_length x hx, bitsToNat_toBin8 x⟩,
    fun p => rfl, fun p h => ?_⟩
  rw [encodeBits, ← flatten_map_toBin8_length p h, List.drop_left]

/-- Claim C3, counterexample to the claim as stated: the payload with the
single character of code point 256 encodes to 17 bits, not 8*(1+1). -/
theorem claim_C3_counterexample :
    (encodeBits [256]).length = 17 ∧
    (encodeBits [256]).length ≠ 8 * (([256] : List Nat).length + 1) := by
  decide

/-- Claim C3, witness: the amended encoding facts evaluated at the
payload "Hi" and the character "A". -/
theorem claim_C3_witness :
    (encodeBits [72, 105]).length = 8 * (2 + 1) ∧
    (toBin8 65).length = 8 ∧ bitsToNat (toBin8 65) = 65 ∧
    (encodeBits [72, 105]).drop (8 * 2) = List.replicate 8 0 :=
  ⟨claim_C3_encoding_amended.1 [72, 105] (by decide),
   (claim_C3_encoding_amended.2.1 65 (by decide)).1,
   (claim_C3_encoding_amended.2.1 65 (by decide)).2,
   claim_C3_encoding_amended.2.2.2 [72, 105] (by decide)⟩

/-! ### Claim C5: threshold relaxation -/

namespace SobelAdaptiveSteganography

theorem maskSum_anti (g : List (List Nat)) {t1 t2 : Int} (h : t1 ≤ t2) :
    maskSum (createEmbeddingMask g t2) ≤ maskSum (createEmbeddingMask g t1) := by
  rw [maskSum, maskSum, createEmbeddingMask, createEmbeddingMask, List.map_map, List.map_map]
  apply List.sum_le_sum
  intro r _
  simp only [Function.comp]
  apply List.sum_le_sum
  intro v _
  split_ifs <;> omega

theorem availableCapacity_anti (c : Nat) (g : List (List Nat)) {t1 t2 : Int} (h : t1 ≤ t2) :
    availableCapacity c (createEmbeddingMask g t2) ≤
      availableCapacity c (createEmbeddingMask g t1) := by
  rw [availableCapacity, availableCapacity]
  by_cases hc : c = 3
  · rw [if_pos hc, if_pos hc]
    exact Nat.mul_le_mul_right 3 (maskSum_anti g h)
  · rw [if_neg hc, if_neg hc]
    exact maskSum_anti g h

theorem endThreshold_le (thr : Int) : endThreshold thr ≤ thr := by
  rw [endThreshold]
  split_ifs <;> omega

theorem endThreshold_step {thr : Int} (h : 0 < thr) :
    endThreshold (thr - 5) = endThreshold thr := by
  rw [endThreshold, endThreshold]
  split_ifs <;> omega

theorem relaxGo_cap_iff (g : List (List Nat)) (c dataLen : Nat) :
    ∀ (fuel : Nat) (thr : Int), thr ≤ 5 * (fuel : Int) →
    (dataLen ≤ availableCapacity c (createEmbeddingMask g (relaxGo g c dataLen fuel thr)) ↔
      dataLen ≤ availableCapacity c (createEmbeddingMask g (endThreshold thr))) := by
  intro fuel
  induction fuel with
  | zero =>
      intro thr hle
      have hthr : ¬(0 < thr) := by
        simp only [Nat.cast_zero, Nat.mul_zero] at hle
        omega
      rw [relaxGo, endThreshold, if_neg hthr]
  | succ f ih =>
      intro thr hle
      rw [relaxGo]
      by_cases hcond : availableCapacity c (createEmbeddingMask g thr) < dataLen ∧ 0 < thr
      · rw [if_pos hcond, ih (thr - 5) (by push_cast at hle ⊢; omega),
          endThreshold_step hcond.2]
      · rw [if_neg hcond]
        push_neg at hcond
        by_cases hthr : 0 < thr
        · have hcap : dataLen ≤ availableCapacity c (createEmbeddingMask g thr) := by
            by_contra hx
            omega
          constructor
          · intro _
            exact le_trans hcap (availableCapacity_anti c g (endThreshold_le thr))
          · intro _
            exact hcap
        · rw [endThreshold, if_neg hthr]

theorem relaxThreshold_cap_iff (g : List (List Nat)) (c dataLen : Nat) (thr : Int) :
    (dataLen ≤ availableCapacity c (createEmbeddingMask g
      (relaxThreshold g c dataLen thr)) ↔
      dataLen ≤ availableCapacity c (createEmbeddingMask g (endThreshold thr))) := by
  apply relaxGo_cap_iff
  push_cast
  omega

theorem embed_isOk_iff (gradFn : Img → List (List Nat)) (img : Img) (p : List Nat)
    (thr : Int) :
    (embed gradFn img p thr).isOk = true ↔
      (encodeBits p).length ≤ availableCapacity img.C (createEmbeddingMask (gradFn img)
        (relaxThreshold (gradFn img) img.C (encodeBits p).length thr)) := by
  simp only [embed]
  by_cases hcap : availableCapacity img.C (createEmbeddingMask (gradFn img)
      (relaxThreshold (gradFn img) img.C (encodeBits p).length thr)) < (encodeBits p).length
  · rw [if_pos hcap]
    constructor
    · intro h
      simp [Except.isOk, Except.toBool] at h
    · intro h
      omega
  · rw [if_neg hcap]
    constructor
    · intro _
      omega
    · intro _
      rfl

end SobelAdaptiveSteganography

/-- Claim C5, amended. The relaxation loop decrements the threshold in
steps of 5 while capacity is insufficient and the threshold is positive;
because the mask is antitone in the threshold, embed succeeds exactly
when the capacity at the LAST threshold of the chain — endThreshold of
the request, which is 0 only when the request is a positive multiple of
5 — is sufficient. The claim as stated (raise iff the capacity at
threshold 0 is insufficient; mask never more permissive than the
threshold-0 mask) holds only for requested thresholds divisible by 5: a
positive request not divisible by 5 ends below 0, and the mask
(gradient > negative) also admits zero-gradient pixels. -/
theorem claim_C5_relaxation_amended :
    (∀ (gradFn : Img → List (List Nat)) (img : Img) (p : List Nat) (thr : Int),
      (SobelAdaptiveSteganography.embed gradFn img p thr).isOk = true ↔
        (encodeBits p).length ≤ SobelAdaptiveSteganography.availableCapacity img.C
          (SobelAdaptiveSteganography.createEmbeddingMask (gradFn img) (endThreshold thr))) ∧
    (∀ (gradFn : Img → List (List Nat)) (img : Img) (p : List Nat) (thr : Int),
      0 < thr → thr % 5 = 0 →
      ((SobelAdaptiveSteganography.embed gradFn img p thr).isOk = true ↔
        (encodeBits p).length ≤ SobelAdaptiveSteganography.availableCapacity img.C
          (SobelAdaptiveSteganography.createEmbeddingMask (gradFn img) 0))) ∧
    (∀ thr : Int, 0 < thr → thr % 5 ≠ 0 → endThreshold thr < 0) := by
  have hmain : ∀ (gradFn : Img → List (List Nat)) (img : Img) (p : List Nat) (thr : Int),
      (SobelAdaptiveSteganography.embed gradFn img p thr).isOk = true ↔
        (encodeBits p).length ≤ SobelAdaptiveSteganography.availableCapacity img.C
          (SobelAdaptiveSteganography.createEmbeddingMask (gradFn img) (endThreshold thr)) := by
    intro gradFn img p thr
    rw [SobelAdaptiveSteganography.embed_isOk_iff,
      SobelAdaptiveSteganography.relaxThreshold_cap_iff]
  refine ⟨hmain, ?_, ?_⟩
  · intro gradFn img p thr h0 h5
    have hend : endThreshold thr = 0 := by
      rw [endThreshold, if_pos h0, if_pos h5]
    rw [hmain gradFn img p thr, hend]
  · intro thr h0 h5
    rw [endThreshold, if_pos h0, if_neg h5]
    omega

set_option maxRecDepth 8192 in
/-- Claim C5, counterexample to the claim as stated: with the 4 by 4
gradient containing one zero cell, the capacity of the threshold-0 mask
is 15 bits, below the 16 encoded bits of the payload "A", so the claim
demands CapacityError; yet embed with requested threshold 2 relaxes to
-3, whose mask also admits the zero-gradient pixel, and succeeds. -/
theorem claim_C5_counterexample :
    SobelAdaptiveSteganography.availableCapacity cex5Img.C
      (SobelAdaptiveSteganography.createEmbeddingMask cex5Grad 0) < (encodeBits [65]).length ∧
    (SobelAdaptiveSteganography.embed (fun _ => cex5Grad) cex5Img [65] 2).isOk = true := by
  decide

set_option maxRecDepth 8192 in
/-- Claim C5, witness: the amended characterization evaluated at the same
4 by 4 instance, plus the negative final threshold for a request not
divisible by 5. -/
theorem claim_C5_witness :
    (SobelAdaptiveSteganography.embed (fun _ => cex5Grad) cex5Img [66] 2).isOk = true ∧
    endThreshold 7 < 0 :=
  ⟨(claim_C5_relaxation_amended.1 (fun _ => cex5Grad) cex5Img [66] 2).mpr (by decide),
   claim_C5_relaxation_amended.2.2 7 (by decide) (by decide)⟩

/-! ### Claim C10: frame effect of embedding -/

theorem all_closeBy1_of_map_div2 : ∀ A B : List Nat, A.map (· / 2) = B.map (· / 2) →
    (A.zip B).all closeBy1 = true := by
  intro A
  induction A with
  | nil => intro B _; rfl
  | cons a A ih =>
      intro B h
      cases B with
      | nil => rfl
      | cons b B =>
          simp only [List.map_cons, List.cons.injEq] at h
          rw [List.zip_cons_cons, List.all_cons, ih B h.2]
          have hc : closeBy1 (a, b) = true := by
            rw [closeBy1]
            simp only [Bool.and_eq_true, decide_eq_true_eq]
            have := h.1
            omega
          rw [hc]
          rfl

theorem sembedPixList_flatten_div2 : ∀ (pxs : List (List Nat)) (ms bs : List Nat),
    (∀ s ∈ pxs.flatten, s < 256) → (∀ b ∈ bs, b ≤ 1) →
    ((SobelAdaptiveSteganography.sembedPixList pxs ms bs).1.flatten).map (· / 2) =
      pxs.flatten.map (· / 2) := by
  intro pxs
  induction pxs with
  | nil => intro ms bs _ _; cases ms <;> rfl
  | cons px rest ih =>
      intro ms bs hss hbs
      cases ms with
      | nil => rfl
      | cons m ms =>
          have hpx : ∀ s ∈ px, s < 256 := fun s hs =>
            hss s (by rw [List.flatten_cons]; exact List.mem_append_left _ hs)
          have hrest : ∀ s ∈ rest.flatten, s < 256 := fun s hs =>
            hss s (by rw [List.flatten_cons]; exact List.mem_append_right _ hs)
          rw [SobelAdaptiveSteganography.sembedPixList_cons]
          by_cases hcond : bs ≠ [] ∧ m = 1
          · rw [if_pos hcond]
            show ((embedFlat px bs ::
              (SobelAdaptiveSteganography.sembedPixList rest ms (bs.drop px.length)).1).flatten).map _ = _
            rw [List.flatten_cons, List.flatten_cons, List.map_append, List.map_append,
              embedFlat_map_div2 bs px hpx hbs,
              ih ms (bs.drop px.length) hrest (fun b hb => hbs b (List.mem_of_mem_drop hb))]
          · rw [if_neg hcond]
            show ((px :: (SobelAdaptiveSteganography.sembedPixList rest ms bs).1).flatten).map _ = _
            rw [List.flatten_cons, List.flatten_cons, List.map_append, List.map_append,
              ih ms bs hrest hbs]

theorem sembedRows_flatten_div2 : ∀ (rows : List (List (List Nat)))
    (mrows : List (List Nat)) (bs : List Nat),
    (∀ s ∈ rows.flatten.flatten, s < 256) → (∀ b ∈ bs, b ≤ 1) →
    ((SobelAdaptiveSteganography.sembedRows rows mrows bs).1.flatten.flatten).map (· / 2) =
      (rows.flatten.flatten).map (· / 2) := by
  intro rows
  induction rows with
  | nil => intro mrows bs _ _; cases mrows <;> rfl
  | cons r rest ih =>
      intro mrows bs hss hbs
      cases mrows with
      | nil => rfl
      | cons mr mrest =>
          have hr : ∀ s ∈ r.flatten, s < 256 := fun s hs =>
            hss s (by
              rw [List.flatten_cons, List.flatten_append]
              exact List.mem_append_left _ hs)
          have hrest : ∀ s ∈ rest.flatten.flatten, s < 256 := fun s hs =>
            hss s (by
              rw [List.flatten_cons, List.flatten_append]
              exact List.mem_append_right _ hs)
          show (((SobelAdaptiveSteganography.sembedPixList r mr bs).1 ::
            (SobelAdaptiveSteganography.sembedRows rest mrest
              (SobelAdaptiveSteganography.sembedPixList r mr bs).2).1).flatten.flatten).map _ = _
          rw [List.flatten_cons, List.flatten_append, List.map_append, List.flatten_cons,
            List.flatten_append, List.map_append,
            sembedPixList_flatten_div2 r mr bs hr hbs,
            ih mrest (SobelAdaptiveSteganography.sembedPixList r mr bs).2 hrest
              (by
                rw [SobelAdaptiveSteganography.sembedPixList_snd]
                exact fun b hb => hbs b (List.mem_of_mem_drop hb))]

/-- Claim C10: for both engines, a successful embed returns a stego image
with the same shape whose every sample agrees with the cover above the
least significant bit (so samples change by at most 1); the embedding is
pure (it writes into a copy), so the cover array itself is untouched. -/
theorem claim_C10_frame_effect :
    (∀ (img : Img) (p : List Nat) (st : Img), img.wf →
      LSBSteganography.embed img p = .ok st →
      st.H = img.H ∧ st.W = img.W ∧ st.C = img.C ∧
      st.flat.map (· / 2) = img.flat.map (· / 2) ∧
      (st.flat.zip img.flat).all closeBy1 = true) ∧
    (∀ (gradFn : Img → List (List Nat)) (img : Img) (p : List Nat) (thr : Int) (st : Img),
      img.wf → SobelAdaptiveSteganography.embed gradFn img p thr = .ok st →
      st.H = img.H ∧ st.W = img.W ∧ st.C = img.C ∧
      st.flat.map (· / 2) = img.flat.map (· / 2) ∧
      (st.flat.zip img.flat).all closeBy1 = true) := by
  constructor
  · intro img p st hwf hok
    simp only [LSBSteganography.embed] at hok
    by_cases hcap : img.flat.length < (encodeBits p).length
    · rw [if_pos hcap] at hok
      exact absurd hok (by simp)
    · rw [if_neg hcap] at hok
      have hst := Except.ok.inj hok
      subst hst
      have hdiv2 : (Img.mk img.H img.W img.C
          (embedRows img.rows (encodeBits p)).1).flat.map (· / 2) =
          img.flat.map (· / 2) := by
        show ((embedRows img.rows (encodeBits p)).1.flatten.flatten).map (· / 2) = _
        have hfeq : img.flat = img.rows.flatten.flatten := rfl
        rw [embedRows_flatten, ← hfeq,
          embedFlat_map_div2 (encodeBits p) img.flat (Img.mem_flat hwf)
            (encodeBits_mem_le_one p)]
      exact ⟨rfl, rfl, rfl, hdiv2, all_closeBy1_of_map_div2 _ _ hdiv2⟩
  · intro gradFn img p thr st hwf hok
    simp only [SobelAdaptiveSteganography.embed] at hok
    by_cases hcap : SobelAdaptiveSteganography.availableCapacity img.C
        (SobelAdaptiveSteganography.createEmbeddingMask (gradFn img)
          (SobelAdaptiveSteganography.relaxThreshold (gradFn img) img.C
            (encodeBits p).length thr)) < (encodeBits p).length
    · rw [if_pos hcap] at hok
      exact absurd hok (by simp)
    · rw [if_neg hcap] at hok
      have hst := Except.ok.inj hok
      subst hst
      have hdiv2 : (Img.mk img.H img.W img.C
          (SobelAdaptiveSteganography.sembedRows img.rows
            (SobelAdaptiveSteganography.createEmbeddingMask (gradFn img)
              (SobelAdaptiveSteganography.relaxThreshold (gradFn img) img.C
                (encodeBits p).length thr)) (encodeBits p)).1).flat.map (· / 2) =
          img.flat.map (· / 2) := by
        show ((SobelAdaptiveSteganography.sembedRows img.rows _ (encodeBits p)).1.flatten.flatten).map (· / 2) = _
        have hfeq : img.flat = img.rows.flatten.flatten := rfl
        rw [sembedRows_flatten_div2 img.rows _ (encodeBits p)
          (by rw [← hfeq]; exact Img.mem_flat hwf) (encodeBits_mem_le_one p), ← hfeq]
      exact ⟨rfl, rfl, rfl, hdiv2, all_closeBy1_of_map_div2 _ _ hdiv2⟩

set_option maxRecDepth 8192 in
/-- Claim C10, witness: embedding the empty payload into the all-128
grayscale image returns the image unchanged for both engines, which
satisfies every conclusion. -/
theorem claim_C10_witness :
    (witGrayImg.H = witGrayImg.H ∧ witGrayImg.W = witGrayImg.W ∧
     witGrayImg.C = witGrayImg.C ∧
     witGrayImg.flat.map (· / 2) = witGrayImg.flat.map (· / 2) ∧
     (witGrayImg.flat.zip witGrayImg.flat).all closeBy1 = true) ∧
    (witGrayImg.H = witGrayImg.H ∧ witGrayImg.W = witGrayImg.W ∧
     witGrayImg.C = witGrayImg.C ∧
     witGrayImg.flat.map (· / 2) = witGrayImg.flat.map (· / 2) ∧
     (witGrayImg.flat.zip witGrayImg.flat).all closeBy1 = true) :=
  ⟨claim_C10_frame_effect.1 witGrayImg [] witGrayImg (by decide) (by decide),
   claim_C10_frame_effect.2 (fun _ => witGrad) witGrayImg [] 30 witGrayImg
     (by decide) (by decide)⟩

/-! ### Claim C7: PSNR -/

theorem sqDiffSum_nonneg : ∀ a b : List Nat, 0 ≤ sqDiffSum a b := by
  intro a
  induction a with
  | nil => intro b; cases b <;> simp [sqDiffSum]
  | cons x a ih =>
      intro b
      cases b with
      | nil => simp [sqDiffSum]
      | cons y b =>
          simp only [sqDiffSum]
          have h1 := mul_self_nonneg ((x : ℚ) - (y : ℚ))
          have h2 := ih b
          linarith

theorem sqDiffSum_self : ∀ a : List Nat, sqDiffSum a a = 0 := by
  intro a
  induction a with
  | nil => rfl
  | cons x a ih => simp [sqDiffSum, ih]

theorem sqDiffSum_eq_zero_iff : ∀ a b : List Nat, a.length = b.length →
    (sqDiffSum a b = 0 ↔ a = b) := by
  intro a
  induction a with
  | nil =>
      intro b h
      have hb : b = [] := by
        cases b
        · rfl
        · simp at h
      subst hb
      simp [sqDiffSum]
  | cons x a ih =>
      intro b h
      cases b with
      | nil => simp at h
      | cons y b =>
          simp only [sqDiffSum]
          constructor
          · intro h0
            have h1 := mul_self_nonneg ((x : ℚ) - (y : ℚ))
            have h2 := sqDiffSum_nonneg a b
            have hx : ((x : ℚ) - (y : ℚ)) * ((x : ℚ) - (y : ℚ)) = 0 := by linarith
            have hrest : sqDiffSum a b = 0 := by linarith
            have hxy : (x : ℚ) = (y : ℚ) := by
              have := mul_self_eq_zero.mp hx
              linarith
            have hxy2 : x = y := by exact_mod_cast hxy
            rw [hxy2, (ih b (by simpa using h)).mp hrest]
          · intro heq
            injection heq with h1 h2
            subst h1
            subst h2
            simp [sqDiffSum_self]

/-- Claim C7, amended. For nonempty images of equal shape, PSNR is
infinite exactly when the two flattened sample lists coincide (MSE zero);
PSNR of an image with itself is infinite; distinct shapes raise. The
amendment: for the degenerate 0-sample image np.mean returns nan, not 0,
so the result is nan rather than infinity, and the identity fails there
(see the counterexample). -/
theorem claim_C7_psnr_amended :
    (∀ a b : Img, a.wf → b.wf → a.shape = b.shape → a.flat ≠ [] →
      (calculatePsnr a b = .ok .inf ↔ a.flat = b.flat)) ∧
    (∀ a : Img, a.wf → a.flat ≠ [] → calculatePsnr a a = .ok .inf) ∧
    (∀ a b : Img, a.shape ≠ b.shape → calculatePsnr a b = .error .shapeMismatch) := by
  have hpart1 : ∀ a b : Img, a.wf → b.wf → a.shape = b.shape → a.flat ≠ [] →
      (calculatePsnr a b = .ok .inf ↔ a.flat = b.flat) := by
    intro a b hwfa hwfb hsh hne
    have hsh2 : a.H = b.H ∧ a.W = b.W ∧ a.C = b.C := by
      rw [Img.shape, Img.shape, Prod.ext_iff, Prod.ext_iff] at hsh
      exact ⟨hsh.1, hsh.2.1, hsh.2.2⟩
    have hlen : a.flat.length = b.flat.length := by
      rw [Img.flat_length hwfa, Img.flat_length hwfb, hsh2.1, hsh2.2.1, hsh2.2.2]
    have hn : ¬(a.flat.length = 0) := fun h => hne (List.length_eq_zero.mp h)
    simp only [calculatePsnr]
    rw [if_neg (not_not_intro hsh), if_neg hn]
    constructor
    · intro h
      by_cases hm : sqDiffSum a.flat b.flat / ((a.flat.length : Nat) : ℚ) = 0
      · have hsq : sqDiffSum a.flat b.flat = 0 := by
          rcases div_eq_zero_iff.mp hm with h2 | h2
          · exact h2
          · exact absurd h2 (by exact_mod_cast hn)
        exact (sqDiffSum_eq_zero_iff a.flat b.flat hlen).mp hsq
      · rw [if_neg hm] at h
        exact absurd h (by simp)
    · intro h
      have hsq : sqDiffSum a.flat b.flat = 0 := by
        rw [h]
        exact sqDiffSum_self b.flat
      rw [if_pos (by rw [hsq, zero_div])]
  refine ⟨hpart1, fun a hwf hne => (hpart1 a a hwf hwf rfl hne).mpr rfl, ?_⟩
  intro a b hne
  simp only [calculatePsnr]
  rw [if_pos hne]

/-- Claim C7, counterexample to the claim as stated: on the 0 by 0 image
the mean squared error is np.mean of an empty array, nan, so PSNR of the
empty image with itself is nan rather than infinity, although the two
images agree at every sample. -/
theorem claim_C7_counterexample :
    emptyGray.shape = emptyGray.shape ∧ emptyGray.flat = emptyGray.flat ∧
    calculatePsnr emptyGray emptyGray = .ok .nan ∧
    calculatePsnr emptyGray emptyGray ≠ .ok .inf := by
  decide

/-- Claim C7, witness: the PSNR identity on a 1 by 1 image and the shape
mismatch error. -/
theorem claim_C7_witness :
    calculatePsnr oneGray oneGray = .ok .inf ∧
    calculatePsnr oneGray emptyGray = .error .shapeMismatch :=
  ⟨claim_C7_psnr_amended.2.1 oneGray (by decide) (by decide),
   claim_C7_psnr_amended.2.2 oneGray emptyGray (by decide)⟩

/-! ### Claim C8: BER over text -/

/-- Claim C8, amended. calculate_ber_text returns 1 when either input is
None or either string is empty; otherwise it counts the mismatches over
the shorter length PLUS the length excess of the ORIGINAL only (an excess
of the extracted string is ignored, unlike the claim's "any length excess
in the longer string"), normalizes by the length of the original, always
lands in [0,1], and, being total, never raises. -/
theorem claim_C8_bertext_amended :
    (∀ e, calculateBerText none e = 1) ∧
    (∀ o, calculateBerText o none = 1) ∧
    (∀ ot et : List Nat, ot.length = 0 ∨ et.length = 0 →
      calculateBerText (some ot) (some et) = 1) ∧
    (∀ ot et : List Nat, 0 < ot.length → 0 < et.length →
      calculateBerText (some ot) (some et) =
        (((List.range (min ot.length et.length)).countP
            (fun i => ot.getD i 0 != et.getD i 0) +
          (ot.length - min ot.length et.length) : Nat) : ℚ) / ((ot.length : Nat) : ℚ)) ∧
    (∀ o e, 0 ≤ calculateBerText o e ∧ calculateBerText o e ≤ 1) := by
  refine ⟨fun e => by cases e <;> rfl, fun o => by cases o <;> rfl, ?_, ?_, ?_⟩
  · intro ot et h
    simp only [calculateBerText]
    rw [if_pos (by omega)]
  · intro ot et ho he
    simp only [calculateBerText]
    rw [if_neg (by omega)]
    by_cases hlt : min ot.length et.length < ot.length
    · rw [if_pos hlt]
    · rw [if_neg hlt]
      have hz : ot.length - min ot.length et.length = 0 := by omega
      rw [hz, Nat.add_zero]
  · intro o e
    match o, e with
    | none, e => constructor <;> norm_num [calculateBerText]
    | some ot, none => constructor <;> norm_num [calculateBerText]
    | some ot, some et =>
        simp only [calculateBerText]
        by_cases hmin : min ot.length et.length = 0
        · rw [if_pos hmin]
          norm_num
        · rw [if_neg hmin]
          have hcnt : (List.range (min ot.length et.length)).countP
              (fun i => ot.getD i 0 != et.getD i 0) ≤ min ot.length et.length := by
            have := List.countP_le_length
              (fun i => ot.getD i 0 != et.getD i 0)
              (l := List.range (min ot.length et.length))
            simpa using this
          have hle : (if min ot.length et.length < ot.length then
              (List.range (min ot.length et.length)).countP
                (fun i => ot.getD i 0 != et.getD i 0) + (ot.length - min ot.length et.length)
            else (List.range (min ot.length et.length)).countP
                (fun i => ot.getD i 0 != et.getD i 0)) ≤ ot.length := by
            split_ifs <;> omega
          have hpos : (0 : ℚ) < ((ot.length : Nat) : ℚ) := by
            have : 0 < ot.length := by omega
            exact_mod_cast this
          constructor
          · positivity
          · rw [div_le_one hpos]
            exact_mod_cast hle

/-- Claim C8, counterexample to the claim as stated: original "a",
extracted "ab". The extracted string is the longer one; the code ignores
its excess character and returns 0, while the claim's rule (count any
excess in the longer string, normalize by the original length) yields 1. -/
theorem claim_C8_counterexample :
    calculateBerText (some [97]) (some [97, 98]) = 0 ∧
    berTextClaimed (some [97]) (some [97, 98]) = 1 ∧
    calculateBerText (some [97]) (some [97, 98]) ≠
      berTextClaimed (some [97]) (some [97, 98]) := by
  have h1 : calculateBerText (some [97]) (some [97, 98]) = 0 := by
    simp [calculateBerText]
  have h2 : berTextClaimed (some [97]) (some [97, 98]) = 1 := by
    simp [berTextClaimed]
  exact ⟨h1, h2, by rw [h1, h2]; norm_num⟩

/-- Claim C8, witness: the amended facts evaluated on concrete texts. -/
theorem claim_C8_witness :
    calculateBerText none (some [97]) = 1 ∧
    calculateBerText (some [97]) (some []) = 1 ∧
    calculateBerText (some [97, 98]) (some [99]) = ((2 : Nat) : ℚ) / ((2 : Nat) : ℚ) ∧
    (0 ≤ calculateBerText (some [97]) (some [97, 98]) ∧
     calculateBerText (some [97]) (some [97, 98]) ≤ 1) :=
  ⟨claim_C8_bertext_amended.1 (some [97]),
   claim_C8_bertext_amended.2.2.1 [97] [] (by decide),
   claim_C8_bertext_amended.2.2.2.1 [97, 98] [99] (by decide) (by decide),
   claim_C8_bertext_amended.2.2.2.2 (some [97]) (some [97, 98])⟩

/-! ### Claim C6: attack parameter validation -/

/-- Claim C6: jpeg_compression rejects with ValueError exactly the
qualities outside [1,100] and crop_attack exactly the ratios outside the
open interval (0,1); in the rejecting case the function returns before
touching the image, and no other path produces this error. -/
theorem claim_C6_param_validation :
    (∀ (codecRT : Img → Img) (resizeFn : Img → Nat → Nat → Img) (img : Img) (q : Int),
      AttackSimulator.jpegCompression codecRT resizeFn img q = .error .invalidParameter ↔
        q < 1 ∨ 100 < q) ∧
    (∀ (resizeFn : Img → Nat → Nat → Img) (img : Img) (ratio : ℚ),
      AttackSimulator.cropAttack resizeFn img ratio = .error .invalidParameter ↔
        ratio ≤ 0 ∨ 1 ≤ ratio) := by
  constructor
  · intro codecRT resizeFn img q
    simp only [AttackSimulator.jpegCompression]
    by_cases hq : q < 1 ∨ 100 < q
    · rw [if_pos hq]
      simp [hq]
    · rw [if_neg hq]
      by_cases hsh : (codecRT img).shape ≠ img.shape
      · rw [if_pos hsh]
        simp [hq]
      · rw [if_neg hsh]
        simp [hq]
  · intro resizeFn img ratio
    simp only [AttackSimulator.cropAttack]
    by_cases hr : ratio ≤ 0 ∨ 1 ≤ ratio
    · rw [if_pos hr]
      simp [hr]
    · rw [if_neg hr]
      simp [hr]

/-- Claim C6, witness: the boundary instances the claim names — quality 0
and 101, ratio 0 and 1 — all raise. -/
theorem claim_C6_witness :
    AttackSimulator.jpegCompression witCodec witResize witGrayImg 0 =
      .error .invalidParameter ∧
    AttackSimulator.jpegCompression witCodec witResize witGrayImg 101 =
      .error .invalidParameter ∧
    AttackSimulator.cropAttack witResize witGrayImg 0 = .error .invalidParameter ∧
    AttackSimulator.cropAttack witResize witGrayImg 1 = .error .invalidParameter :=
  ⟨(claim_C6_param_validation.1 witCodec witResize witGrayImg 0).mpr (by omega),
   (claim_C6_param_validation.1 witCodec witResize witGrayImg 101).mpr (by omega),
   (claim_C6_param_validation.2 witResize witGrayImg 0).mpr (by norm_num),
   (claim_C6_param_validation.2 witResize witGrayImg 1).mpr (by norm_num)⟩

/-! ### Claim C2: attack shape preservation -/

/-- Claim C2: shape behavior of the four attacks, under the documented
shape contracts of the cv2 primitives (cv2.imread decodes to 3 channels,
cv2.resize produces the requested spatial size and keeps channels,
cv2.GaussianBlur keeps the shape; cv2.resize can additionally throw on an
empty source, which is outside this modelled contract). Blur, crop and
noise preserve the shape, and jpeg_compression preserves it for color
images; for a GRAYSCALE image, however, jpeg_compression returns a
3-channel image: the decoded array is (H,W,3), and the resize-back only
restores height and width, not the channel count. This contradicts the
claim and the explicit shape-restoration intent of the code. -/
theorem claim_C2_attack_shapes :
    (∀ (codecRT : Img → Img) (resizeFn : Img → Nat → Nat → Img) (img : Img) (q : Int),
      (∀ i : Img, (codecRT i).H = i.H ∧ (codecRT i).W = i.W ∧ (codecRT i).C = 3) →
      (∀ (i : Img) (w h : Nat), (resizeFn i w h).H = h ∧ (resizeFn i w h).W = w ∧
        (resizeFn i w h).C = i.C) →
      1 ≤ q → q ≤ 100 →
      (img.C = 3 →
        (AttackSimulator.jpegCompression codecRT resizeFn img q).map Img.shape =
          .ok img.shape) ∧
      (img.C = 1 →
        (AttackSimulator.jpegCompression codecRT resizeFn img q).map Img.shape =
          .ok (img.H, img.W, 3))) ∧
    (∀ (blurFn : Img → Nat → ℚ → Img) (img : Img) (k : Nat) (sigma : ℚ),
      (∀ (i : Img) (k2 : Nat) (s : ℚ), (blurFn i k2 s).shape = i.shape) →
      (AttackSimulator.gaussianBlur blurFn img k sigma).shape = img.shape) ∧
    (∀ (resizeFn : Img → Nat → Nat → Img) (img : Img) (ratio : ℚ),
      (∀ (i : Img) (w h : Nat), (resizeFn i w h).H = h ∧ (resizeFn i w h).W = w ∧
        (resizeFn i w h).C = i.C) →
      0 < ratio → ratio < 1 →
      (AttackSimulator.cropAttack resizeFn img ratio).map Img.shape = .ok img.shape) ∧
    (∀ (noiseFn : Nat → Nat → Nat → ℚ) (img : Img),
      (AttackSimulator.gaussianNoise noiseFn img).shape = img.shape) := by
  refine ⟨?_, ?_, ?_, ?_⟩
  · intro codecRT resizeFn img q hcodec hresize hq1 hq2
    have hvalid : ¬(q < 1 ∨ 100 < q) := by omega
    constructor
    · intro h3
      have hsh : (codecRT img).shape = img.shape := by
        rw [Img.shape, Img.shape, (hcodec img).1, (hcodec img).2.1, (hcodec img).2.2, h3]
      simp only [AttackSimulator.jpegCompression]
      rw [if_neg hvalid, if_neg (not_not_intro hsh)]
      simp only [Except.map]
      rw [hsh]
    · intro h1
      have hsh : (codecRT img).shape ≠ img.shape := by
        rw [Img.shape, Img.shape, (hcodec img).2.2, h1]
        simp
      simp only [AttackSimulator.jpegCompression]
      rw [if_neg hvalid, if_pos hsh]
      simp only [Except.map]
      rw [Img.shape, (hresize (codecRT img) img.W img.H).1,
        (hresize (codecRT img) img.W img.H).2.1,
        (hresize (codecRT img) img.W img.H).2.2, (hcodec img).2.2]
  · intro blurFn img k sigma hblur
    simp only [AttackSimulator.gaussianBlur]
    exact hblur img _ sigma
  · intro resizeFn img ratio hresize hr0 hr1
    have hvalid : ¬(ratio ≤ 0 ∨ 1 ≤ ratio) := by
      push_neg
      exact ⟨hr0, hr1⟩
    simp only [AttackSimulator.cropAttack]
    rw [if_neg hvalid]
    simp only [Except.map]
    rw [Img.shape, (hresize _ img.W img.H).1, (hresize _ img.W img.H).2.1,
      (hresize _ img.W img.H).2.2]
    rfl
  · intro noiseFn img
    rfl

/-- Claim C2, witness: the shape conclusions evaluated with concrete
codec, resize, blur and noise functions satisfying the contracts —
including the divergent grayscale jpeg case, whose output has 3 channels
and therefore NOT the input shape (2, 8, 1). -/
theorem claim_C2_witness :
    (AttackSimulator.jpegCompression witCodec witResize cexColorImg 75).map Img.shape =
      .ok cexColorImg.shape ∧
    (AttackSimulator.jpegCompression witCodec witResize witGrayImg 75).map Img.shape =
      .ok (witGrayImg.H, witGrayImg.W, 3) ∧
    (AttackSimulator.gaussianBlur witBlur witGrayImg 4 1).shape = witGrayImg.shape ∧
    (AttackSimulator.cropAttack witResize witGrayImg (9 / 10)).map Img.shape =
      .ok witGrayImg.shape ∧
    (AttackSimulator.gaussianNoise (fun _ _ _ => 0) witGrayImg).shape = witGrayImg.shape :=
  ⟨(claim_C2_attack_shapes.1 witCodec witResize cexColorImg 75
      (fun i => ⟨rfl, rfl, rfl⟩) (fun i w h => ⟨rfl, rfl, rfl⟩)
      (by omega) (by omega)).1 rfl,
   (claim_C2_attack_shapes.1 witCodec witResize witGrayImg 75
      (fun i => ⟨rfl, rfl, rfl⟩) (fun i w h => ⟨rfl, rfl, rfl⟩)
      (by omega) (by omega)).2 rfl,
   claim_C2_attack_shapes.2.1 witBlur witGrayImg 4 1 (fun i k2 s => rfl),
   claim_C2_attack_shapes.2.2.1 witResize witGrayImg (9 / 10)
      (fun i w h => ⟨rfl, rfl, rfl⟩) (by norm_num) (by norm_num),
   claim_C2_attack_shapes.2.2.2 (fun _ _ _ => 0) witGrayImg⟩
